import Mathlib

/-!
cpp.react event streams: `include/react/EventStream.h`.

A shallow embedding of the event-stream front end (`REvents`, `REventSource::Emit`,
`Merge`, `operator|`, `Filter`, the comparison operators and `Transform`) together with
the part of the propagation engine it drives.

The header only builds nodes and routes inputs; the node classes
(`react/graph/EventStreamNodes.h`) and the domain (`ReactiveDomain.h`) are not part of the
translated sources.  Every definition that stands for one of those missing pieces is marked
`Modelled from the spec:` and follows the wording of the specification.

Conventions.
* `V` is the type of event values carried by the streams of one domain.  Streams of
  different C++ event types are modelled by letting `V` be a sum type; the static event
  type `E` of a handle is kept as a tag of an arbitrary type `Ty`.
* A `std::shared_ptr` to a node is the index of that node in the graph (construction order).
* Stateful code is written in state-passing style over `Graph V` and `Domain V`.
-/

namespace react

/-! Nodes and the graph -/

/-- Modelled from the spec: the closed set of node kinds {Source, Merge, Filter, Transform}
(§3, §4.2, §9), each holding what its C++ constructor receives in `EventStream.h`:
`EventSourceNode(false)`, `EventMergeNode(arg1.GetPtr(), args.GetPtr() ..., false)`,
`EventFilterNode(src.GetPtr(), filter, false)`, `EventTransformNode(src.GetPtr(), func, false)`.
The node classes themselves live in `react/graph/EventStreamNodes.h`. -/
inductive NodeKind (V : Type) where
  | source : NodeKind V
  | merge (deps : List Nat) : NodeKind V
  | filter (src : Nat) (filter : V → Bool) : NodeKind V
  | transform (src : Nat) (func : V → V) : NodeKind V

/-- Modelled from the spec: the ordered collection of predecessor references of a node,
fixed at construction time (§3). -/
def NodeKind.predecessors {V : Type} : NodeKind V → List Nat
  | .source => []
  | .merge deps => deps
  | .filter src _ => [src]
  | .transform src _ => [src]

/-- Modelled from the spec: the graph vertex (§3): its kind (which fixes the predecessors and
the evaluation routine), the successor back-references, and the transient event buffer. -/
structure Node (V : Type) where
  kind : NodeKind V
  successors : List Nat
  events : List V

/-- Modelled from the spec: the node graph; a node reference is the position of the node in
construction order. -/
abbrev Graph (V : Type) := List (Node V)

/-- Modelled from the spec: `Events(node)`, the current-transaction buffer of a node (§4.1);
empty for a reference outside the graph. -/
def Graph.events {V : Type} (g : Graph V) (n : Nat) : List V :=
  match g[n]? with
  | some nd => nd.events
  | none => []

/-- Modelled from the spec: the predecessor list of the node behind a reference. -/
def Graph.predecessors {V : Type} (g : Graph V) (n : Nat) : List Nat :=
  match g[n]? with
  | some nd => nd.kind.predecessors
  | none => []

/-- Modelled from the spec: the successor back-references of the node behind a reference. -/
def Graph.successors {V : Type} (g : Graph V) (n : Nat) : List Nat :=
  match g[n]? with
  | some nd => nd.successors
  | none => []

/-- Modelled from the spec: `PushEvent(node, value)` appends `value` to the node's transient
buffer (§4.1). -/
def PushEvent {V : Type} (g : Graph V) (n : Nat) (v : V) : Graph V :=
  List.modify (fun nd => { nd with events := nd.events ++ [v] }) n g

/-- Modelled from the spec: `LinkSuccessor(pred, succ)` records `succ` among the successors of
`pred` so that `pred` notifies it during propagation (§4.1). -/
def LinkSuccessor {V : Type} (g : Graph V) (pred succ : Nat) : Graph V :=
  List.modify (fun nd => { nd with successors := nd.successors ++ [succ] }) pred g

/-- Modelled from the spec: `CreateNode(kind, predecessors...)` (§4.1) adds a node with an
empty buffer and links it as a successor of each of its predecessors, in order. This is what
`std::make_shared<Event...Node>(...)` stands for in `EventStream.h`. -/
def CreateNode {V : Type} (g : Graph V) (kind : NodeKind V) : Nat × Graph V :=
  let id := g.length
  let g1 := g ++ [{ kind := kind, successors := [], events := [] }]
  (id, kind.predecessors.foldl (fun acc p => LinkSuccessor acc p id) g1)

/-! Evaluation routines of the combinators -/

/-- Modelled from the spec: evaluation of a Merge node (§4.2): "for every event present in any
predecessor's current-transaction buffer, append it to Merge's own buffer", predecessors taken
in declaration order. `deps` are the predecessors' buffers, `events` the node's own buffer. -/
def EventMergeNode.Tick {E : Type} (deps : List (List E)) (events : List E) : List E :=
  deps.foldl (fun acc dep => dep.foldl (fun acc2 e => acc2 ++ [e]) acc) events

/-- Modelled from the spec: evaluation of a Filter node (§4.2): "for each event in the
predecessor's buffer, append it to the Filter node's buffer only if the predicate holds". -/
def EventFilterNode.Tick {E : Type} (filter : E → Bool) (src : List E) (events : List E) :
    List E :=
  src.foldl (fun acc e => if filter e then acc ++ [e] else acc) events

/-- Modelled from the spec: evaluation of a Transform node (§4.2): "apply the mapping to every
event in the predecessor's buffer, in order, appending each result to its own buffer". -/
def EventTransformNode.Tick {TIn TOut : Type} (func : TIn → TOut) (src : List TIn)
    (events : List TOut) : List TOut :=
  src.foldl (fun acc e => acc ++ [func e]) events

/-- Modelled from the spec: the evaluation routine of a node, by kind (§3, §4.2). A Source
keeps the events pushed into it; the other kinds read their predecessors' buffers. -/
def Tick {V : Type} (g : Graph V) (n : Nat) : Graph V :=
  match g[n]? with
  | none => g
  | some nd =>
    match nd.kind with
    | .source => g
    | .merge deps =>
        g.set n { nd with events := EventMergeNode.Tick (deps.map g.events) nd.events }
    | .filter src f =>
        g.set n { nd with events := EventFilterNode.Tick f (g.events src) nd.events }
    | .transform src f =>
        g.set n { nd with events := EventTransformNode.Tick f (g.events src) nd.events }

/-! Propagation scheduler -/

/-- Modelled from the spec: the tie-break rule among ready nodes, which the design leaves
unspecified (§4.3, §9): `pick` chooses one of the ready frontier nodes it is given. It is part
of the domain policy `D`. -/
structure Engine where
  pick : List Nat → Option Nat

/-- Modelled from the spec: the rule suggested in §9, the ready node that entered the
frontier first. -/
def Engine.fifo : Engine := { pick := List.head? }

/-- Modelled from the spec: the state of one propagation (§4.3): the graph with the buffers
of the current transaction, the frontier, and the nodes evaluated so far, in order. -/
structure Turn (V : Type) where
  graph : Graph V
  frontier : List Nat
  evaluated : List Nat

/-- Modelled from the spec: adding a node to the frontier, which is a set. -/
def addFrontier (fr : List Nat) (n : Nat) : List Nat :=
  if fr.contains n then fr else fr ++ [n]

/-- Modelled from the spec: a node is waiting when it is in the frontier and not yet marked
evaluated (§4.3). -/
def Turn.waiting {V : Type} (t : Turn V) (n : Nat) : Bool :=
  t.frontier.contains n && !(t.evaluated.contains n)

/-- Modelled from the spec: whether node `p` may still fire in this transaction (§8, "if they
fired"): `p` is waiting, or one of its predecessors may still fire. The first argument bounds
the length of the chain of predecessors that is followed. -/
def Turn.mayFire {V : Type} (t : Turn V) : Nat → Nat → Bool
  | 0, p => t.waiting p
  | k + 1, p => t.waiting p || (t.graph.predecessors p).any (fun q => t.mayFire k q)

/-- Modelled from the spec: node `p` is pending when it may still fire; predecessors are built
before their successors (§4.3, "acyclic by construction order"), so a chain of predecessors
going up from `p` has at most `p` steps. -/
def Turn.pending {V : Type} (t : Turn V) (p : Nat) : Bool :=
  t.mayFire (p + 1) p

/-- Modelled from the spec: a frontier node can be picked when it is not yet marked evaluated
and "all of whose predecessors have already been evaluated in this transaction (or that has
no predecessors)" (§4.3), a predecessor that does not fire in the transaction not being
waited for (§8: "only after all its predecessors have fired (if they fired)"; §4.2: a Merge
takes the events of any predecessor): every predecessor has been evaluated or is not
pending. -/
def Turn.ready {V : Type} (t : Turn V) (n : Nat) : Bool :=
  !(t.evaluated.contains n) &&
    (t.graph.predecessors n).all (fun p => t.evaluated.contains p || !(t.pending p))

/-- Modelled from the spec: a successor is notified when it has a predecessor with a
nonempty buffer (§4.3). -/
def notified {V : Type} (g : Graph V) (s : Nat) : Bool :=
  (g.predecessors s).any (fun p => !(g.events p).isEmpty)

/-- Modelled from the spec: one scheduler step on the picked node (§4.3): "run its evaluation
routine, mark it evaluated, and add every successor with nonempty predecessor buffers to the
frontier". -/
def Turn.evaluate {V : Type} (t : Turn V) (n : Nat) : Turn V :=
  let g := Tick t.graph n
  { graph := g
    frontier := ((g.successors n).filter (notified g)).foldl addFrontier
      (t.frontier.filter (fun m => m != n))
    evaluated := t.evaluated ++ [n] }

/-- Modelled from the spec: the scheduler loop (§4.3): repeatedly pick a ready frontier node
and evaluate it, until none is left. The loop is bounded by `fuel`; `Propagate` supplies
enough of it. -/
def propagate {V : Type} (D : Engine) : Nat → Turn V → Turn V
  | 0, t => t
  | fuel + 1, t =>
    let cands := t.frontier.filter t.ready
    match D.pick cands with
    | none => t
    | some n => if cands.contains n then propagate D fuel (t.evaluate n) else t

/-! Transactions -/

/-- Modelled from the spec: the inputs accumulated by a transaction (`t.Data().Input()`), each
a source node and the value emitted into it, in emission order. -/
structure TransactionInput (V : Type) where
  events : List (Nat × V)

/-- Modelled from the spec: `AddEventInput(node, e)` appends the input to the transaction
(§4.4). -/
def TransactionInput.AddEventInput {V : Type} (i : TransactionInput V) (node : Nat) (e : V) :
    TransactionInput V :=
  { events := i.events ++ [(node, e)] }

/-- Modelled from the spec: `AddEventInput_Safe(node, e)`, the variant used on a
continuation; it appends the input as `AddEventInput` does. -/
def TransactionInput.AddEventInput_Safe {V : Type} (i : TransactionInput V) (node : Nat)
    (e : V) : TransactionInput V :=
  { events := i.events ++ [(node, e)] }

/-- Modelled from the spec: the seed nodes of a transaction, those that received direct
input (§3), without repetition. -/
def TransactionInput.seeds {V : Type} (i : TransactionInput V) : List Nat :=
  (i.events.map Prod.fst).foldl addFrontier []

/-- Modelled from the spec: every input is pushed into the buffer of its source node. -/
def TransactionInput.apply {V : Type} (i : TransactionInput V) (g : Graph V) : Graph V :=
  i.events.foldl (fun acc x => PushEvent acc x.1 x.2) g

/-- Modelled from the spec: the number of scheduler steps that always suffices: a node is
evaluated at most once and is a seed or a successor of some node. -/
def fuelFor {V : Type} (g : Graph V) (seeds : List Nat) : Nat :=
  seeds.length + (g.map (fun nd => nd.successors.length)).sum

/-- Modelled from the spec: the propagation of one transaction (§4.3, §4.4): the inputs are
pushed into their source nodes, which form the initial frontier, and the scheduler runs.
The result is the state observed inside the transaction, before buffers are cleared. -/
def Propagate {V : Type} (D : Engine) (g : Graph V) (i : TransactionInput V) : Turn V :=
  propagate D (fuelFor g i.seeds) { graph := i.apply g, frontier := i.seeds, evaluated := [] }

/-- Modelled from the spec: `CurrentEvents(node)` read at the end of the propagation of a
transaction with the given inputs (§6). -/
def CurrentEvents {V : Type} (D : Engine) (g : Graph V) (i : TransactionInput V) (n : Nat) :
    List V :=
  (Propagate D g i).graph.events n

/-- Modelled from the spec: clearing the transient buffers of the given nodes. -/
def clearEvents {V : Type} (g : Graph V) (ns : List Nat) : Graph V :=
  ns.foldl (fun acc n => List.modify (fun nd => { nd with events := [] }) n acc) g

/-- Modelled from the spec: `Commit()` "invokes the Propagation Scheduler over the accumulated
seed set, then clears every touched node's transient buffer" (§4.4). The touched nodes are the
seeds and the nodes that were evaluated. -/
def CommitGraph {V : Type} (D : Engine) (g : Graph V) (i : TransactionInput V) : Graph V :=
  let t := Propagate D g i
  clearEvents t.graph (i.seeds ++ t.evaluated)

/-- Modelled from the spec: the state of a domain as seen by one thread: the graph, the
thread-local `TransactionInputContinuation` and `ScopedTransactionInput` (`none` when
`IsNull()`), the number of `Domain::Transaction` objects constructed so far, and the inputs of
every commit performed so far, one entry per propagation pass. -/
structure Domain (V : Type) where
  graph : Graph V
  continuation : Option (TransactionInput V)
  scopedInput : Option (TransactionInput V)
  transactions : Nat
  commits : List (List (Nat × V))

/-- Modelled from the spec: a `Domain::Transaction` under construction. -/
structure Transaction (V : Type) where
  input : TransactionInput V

/-- Modelled from the spec: constructing a `Domain::Transaction` (`Domain::Transaction t;`),
with no input yet. -/
def Transaction.create {V : Type} (d : Domain V) : Transaction V × Domain V :=
  ({ input := { events := [] } }, { d with transactions := d.transactions + 1 })

/-- Modelled from the spec: `t.Commit()` runs one propagation pass over the transaction's
inputs and clears the touched buffers (§4.4). -/
def Transaction.Commit {V : Type} (D : Engine) (t : Transaction V) (d : Domain V) : Domain V :=
  { d with graph := CommitGraph D d.graph t.input, commits := d.commits ++ [t.input.events] }

/-- Modelled from the spec: `BeginScope()` (§6): `Idle → Batching`; the scoped transaction
starts with no input. An already open scope is kept. -/
def BeginScope {V : Type} (d : Domain V) : Domain V :=
  match d.scopedInput with
  | some _ => d
  | none => { d with scopedInput := some { events := [] }, transactions := d.transactions + 1 }

/-- Modelled from the spec: `Commit(TransactionHandle)` of a scope (§4.4, §6): the batched
inputs are committed in one pass and the thread returns to `Idle`. -/
def CommitScope {V : Type} (D : Engine) (d : Domain V) : Domain V :=
  match d.scopedInput with
  | none => d
  | some i => Transaction.Commit D { input := i } { d with scopedInput := none }

/-! `EventStream.h` -/

/-- The handle `REvents<D,E>`: a shared pointer to the stream's node, with the static event
type `E` kept as a tag. -/
structure REvents (Ty : Type) where
  ptr : Nat
  E : Ty

/-- The handle `REventSource<D,E>`, which derives from `REvents<D,E>`. -/
structure REventSource (Ty : Type) extends REvents Ty

/-- `REventSource::Emit(const E& e)`, lines 84-103. -/
def REventSource.Emit {Ty V : Type} (D : Engine) (self : REventSource Ty) (e : V)
    (d : Domain V) : Domain V :=
  match d.continuation with
  | some c =>
    let sourceNode := self.ptr
    { d with continuation := some (c.AddEventInput_Safe sourceNode e) }
  | none =>
    match d.scopedInput with
    | some s =>
      let sourceNode := self.ptr
      { d with scopedInput := some (s.AddEventInput sourceNode e) }
    | none =>
      let sourceNode := self.ptr
      let (t, d1) := Transaction.create d
      let t1 : Transaction V := { input := t.input.AddEventInput sourceNode e }
      t1.Commit D d1

/-- `MakeEventSource<D,E>()`, lines 127-133. -/
def MakeEventSource {Ty V : Type} (E : Ty) (g : Graph V) : REventSource Ty × Graph V :=
  let (id, g1) := CreateNode g NodeKind.source
  ({ ptr := id, E := E }, g1)

/-- `Merge(arg1, args...)`, lines 146-163. The `static_assert(sizeof...(TArgs) > 0)` is the
only check; every argument has its own event type parameter and the result has the event
type of the first one. `none` stands for the rejected instantiation. -/
def Merge {Ty V : Type} (arg1 : REvents Ty) (args : List (REvents Ty)) (g : Graph V) :
    Option (REvents Ty × Graph V) :=
  if args.length > 0 then
    let (id, g1) := CreateNode g (NodeKind.merge (arg1.ptr :: args.map (fun a => a.ptr)))
    some ({ ptr := id, E := arg1.E }, g1)
  else
    none

/-- `operator|(lhs, rhs)`, lines 165-176. -/
def operatorOr {Ty V : Type} (lhs rhs : REvents Ty) (g : Graph V) :
    Option (REvents Ty × Graph V) :=
  Merge lhs [rhs] g

/-- `Filter(src, filter)`, lines 181-192. -/
def Filter {Ty V : Type} (src : REvents Ty) (filter : V → Bool) (g : Graph V) :
    REvents Ty × Graph V :=
  let (id, g1) := CreateNode g (NodeKind.filter src.ptr filter)
  ({ ptr := id, E := src.E }, g1)

/-- The comparison operators declared by `DECLARE_COMP_OP`, lines 197-215. -/
inductive CompOp where
  | eq | ne | lt | le | gt | ge
  deriving DecidableEq

/-- The lambda `[=] (const E& e) { return e op rhs; }` of `DECLARE_COMP_OP(op)`. -/
def CompOp.lambda {V : Type} [LinearOrder V] (op : CompOp) (rhs : V) : V → Bool :=
  match op with
  | .eq => fun e => decide (e = rhs)
  | .ne => fun e => decide (e ≠ rhs)
  | .lt => fun e => decide (e < rhs)
  | .le => fun e => decide (e ≤ rhs)
  | .gt => fun e => decide (e > rhs)
  | .ge => fun e => decide (e ≥ rhs)

/-- The operator declared by `DECLARE_COMP_OP(op)`: `lhs op rhs` for a stream `lhs` and a
value `rhs`, lines 204-208. -/
def operatorComp {Ty V : Type} [LinearOrder V] (op : CompOp) (lhs : REvents Ty) (rhs : V)
    (g : Graph V) : REvents Ty × Graph V :=
  Filter lhs (op.lambda rhs) g

/-- `Transform(src, func)`, lines 222-236. `TOut` is `decltype(func(src.GetPtr()->Front()))`,
the return type of `func`. -/
def Transform {Ty V : Type} (src : REvents Ty) (TOut : Ty) (func : V → V) (g : Graph V) :
    REvents Ty × Graph V :=
  let (id, g1) := CreateNode g (NodeKind.transform src.ptr func)
  ({ ptr := id, E := TOut }, g1)

/-! Auxiliary definitions used to state the properties -/

/-- The node with its transient buffer emptied: what a node is between transactions. -/
def Node.cleared {V : Type} (nd : Node V) : Node V := { nd with events := [] }

/-- The kind of the node behind a reference, if the reference is in the graph. -/
def Graph.kind? {V : Type} (g : Graph V) (n : Nat) : Option (NodeKind V) :=
  (g[n]?).map Node.kind

/-- The topology of a graph: every node with its buffer emptied. Two graph states with the
same shape are states of the same node graph. -/
def Graph.shape {V : Type} (g : Graph V) : Graph V := g.map Node.cleared

/-- Every transient buffer of the graph is empty. -/
def Graph.clean {V : Type} (g : Graph V) : Bool := g.all (fun nd => nd.events.isEmpty)

/-- Modelled from the spec: the operations a thread performs on a domain (§4.4, §6):
`Emit` on an event source, `BeginScope` and the commit of the open scope. -/
inductive Op (Ty V : Type) where
  | emit (s : REventSource Ty) (e : V) : Op Ty V
  | beginScope : Op Ty V
  | commitScope : Op Ty V

/-- Modelled from the spec: the effect of one operation on the domain. -/
def Op.run {Ty V : Type} (D : Engine) (op : Op Ty V) (d : Domain V) : Domain V :=
  match op with
  | .emit s e => s.Emit D e d
  | .beginScope => BeginScope d
  | .commitScope => CommitScope D d

/-- Modelled from the spec: a sequence of operations performed one after the other. -/
def runOps {Ty V : Type} (D : Engine) (ops : List (Op Ty V)) (d : Domain V) : Domain V :=
  ops.foldl (fun acc op => op.run D acc) d

/-- A batch of emissions performed one after the other. -/
def emitAll {Ty V : Type} (D : Engine) (ins : List (REventSource Ty × V)) (d : Domain V) :
    Domain V :=
  ins.foldl (fun acc x => x.1.Emit D x.2 acc) d

/-- The inputs a batch of emissions hands over: the source node and the value of each. -/
def inputsOf {Ty V : Type} (ins : List (REventSource Ty × V)) : List (Nat × V) :=
  ins.map (fun x => (x.1.ptr, x.2))

/-- A domain in the `Idle` state over a graph: no continuation, no scope, nothing committed. -/
def Domain.idle {V : Type} (g : Graph V) : Domain V :=
  { graph := g, continuation := none, scopedInput := none, transactions := 0, commits := [] }

/-! Example graphs (the scenarios of §8) -/

/-- Event types used in the examples. -/
inductive ExTy where
  | int | double
  deriving DecidableEq

/-- An `int` event source `S`. -/
def exS : REventSource ExTy × Graph Int := MakeEventSource ExTy.int []

/-- The stream `Filter(S, x > 0)`. -/
def exF : REvents ExTy × Graph Int := Filter exS.1.toREvents (fun x => decide (x > 0)) exS.2

/-- The stream `T = Transform(Filter(S, x > 0), x * 2)`. -/
def exT : REvents ExTy × Graph Int := Transform exF.1 ExTy.int (fun x => x * 2) exF.2

/-- Two `int` event sources `S1`, `S2`. -/
def exS1 : REventSource ExTy × Graph Int := MakeEventSource ExTy.int []

/-- The second source `S2`, built after `S1`. -/
def exS2 : REventSource ExTy × Graph Int := MakeEventSource ExTy.int exS1.2

/-- The stream `M = Merge(S1, S2)`. -/
def exM : Option (REvents ExTy × Graph Int) := Merge exS1.1.toREvents [exS2.1.toREvents] exS2.2

/-- The graph of `S1`, `S2` and `M = Merge(S1, S2)`, written out. -/
def exMergeGraph : Graph Int :=
  [ { kind := NodeKind.source, successors := [2], events := [] },
    { kind := NodeKind.source, successors := [2], events := [] },
    { kind := NodeKind.merge [0, 1], successors := [], events := [] } ]

/-- A `double` event source built after the `int` source `S1`. -/
def exD : REventSource ExTy × Graph Int := MakeEventSource ExTy.double exS1.2


/-- The stream `S == 2` over the source `S`. -/
def exEq : REvents ExTy × Graph Int := operatorComp CompOp.eq exS.1.toREvents (2 : Int) exS.2

/-- The number of inputs the domain has taken so far: those held by the continuation, those
held by the open scope and those of the committed transactions. -/
def Domain.delivered {V : Type} (d : Domain V) : Nat :=
  (match d.continuation with
    | some c => c.events.length
    | none => 0) +
  (match d.scopedInput with
    | some s => s.events.length
    | none => 0) +
  (d.commits.map List.length).sum

/-- A domain over the graph of `M = Merge(S1, S2)` with an open scope holding no input. -/
def exBatching : Domain Int :=
  { graph := exMergeGraph, continuation := none, scopedInput := some { events := [] },
    transactions := 1, commits := [] }

/-- A domain over the graph of `M = Merge(S1, S2)` with an active continuation holding one
input and an open scope holding none. -/
def exContinuing : Domain Int :=
  { graph := exMergeGraph, continuation := some { events := [(1, 7)] },
    scopedInput := some { events := [] }, transactions := 1, commits := [] }

/-- The graph is as the builders make it (§3, §4.1, §4.3): every predecessor of a node was
built before the node and has the node among its successors, and every successor of a node
has the node among its predecessors. -/
def Graph.wf {V : Type} (g : Graph V) : Bool :=
  (List.range g.length).all (fun n =>
    (g.predecessors n).all (fun p => decide (p < n) && (g.successors p).contains n) &&
    (g.successors n).all (fun s => (g.predecessors s).contains n))

/-- The stream `U = Transform(S1, x * 2)` built after the sources `S1` and `S2`. -/
def exU : REvents ExTy × Graph Int :=
  Transform exS1.1.toREvents ExTy.int (fun x => x * 2) exS2.2

/-- The stream `N = Merge(U, S2)`: a merge of a derived stream and a source. -/
def exN : Option (REvents ExTy × Graph Int) := Merge exU.1 [exS2.1.toREvents] exU.2

/-- The graph of `S1`, `S2`, `U = Transform(S1, x * 2)` and `N = Merge(U, S2)`, written out. -/
def exDiamond : Graph Int :=
  [ { kind := NodeKind.source, successors := [2], events := [] },
    { kind := NodeKind.source, successors := [3], events := [] },
    { kind := NodeKind.transform 0 (fun x => x * 2), successors := [3], events := [] },
    { kind := NodeKind.merge [2, 1], successors := [], events := [] } ]

/-- A third `int` source `S3`, built after `S1` and `S2`. -/
def exS3 : REventSource ExTy × Graph Int := MakeEventSource ExTy.int exS2.2

/-- The graph of three sources and `Merge(S1, S2, S3)`, written out. -/
def exMerge3 : Graph Int :=
  [ { kind := NodeKind.source, successors := [3], events := [] },
    { kind := NodeKind.source, successors := [3], events := [] },
    { kind := NodeKind.source, successors := [3], events := [] },
    { kind := NodeKind.merge [0, 1, 2], successors := [], events := [] } ]

/-- The buffer of node `n` is what the evaluation routine of its kind yields, on an empty
buffer, from the buffers its predecessors hold in `g`: the concatenation for a Merge, the
events satisfying the predicate for a Filter, the mapped events for a Transform. Nothing is
asked of a Source. -/
def Graph.settled {V : Type} (g : Graph V) (n : Nat) : Prop :=
  match g.kind? n with
  | some (NodeKind.merge deps) => g.events n = (deps.map g.events).flatten
  | some (NodeKind.filter src f) => g.events n = (g.events src).filter f
  | some (NodeKind.transform src f) => g.events n = (g.events src).map f
  | _ => True


/-! The evaluation routines as list functions -/

theorem merge_Tick_eq {E : Type} (deps : List (List E)) (events : List E) :
    EventMergeNode.Tick deps events = events ++ deps.flatten := by
  unfold EventMergeNode.Tick
  induction deps generalizing events with
  | nil => simp
  | cons d ds ih =>
    have h : ∀ (acc : List E), d.foldl (fun acc2 e => acc2 ++ [e]) acc = acc ++ d := by
      induction d with
      | nil => simp
      | cons x xs ihx => intro acc; simp [ihx]
    simp [ih, h]

theorem filter_Tick_eq {E : Type} (f : E → Bool) (src events : List E) :
    EventFilterNode.Tick f src events = events ++ src.filter f := by
  unfold EventFilterNode.Tick
  induction src generalizing events with
  | nil => simp
  | cons x xs ih =>
    by_cases hx : f x <;> simp [ih, hx]

theorem transform_Tick_eq {A B : Type} (f : A → B) (src : List A) (events : List B) :
    EventTransformNode.Tick f src events = events ++ src.map f := by
  unfold EventTransformNode.Tick
  induction src generalizing events with
  | nil => simp
  | cons x xs ih => simp [ih]

/-! Graph states and their shape -/

theorem Graph.shape_getElem? {V : Type} (g : Graph V) (n : Nat) :
    g.shape[n]? = (g[n]?).map Node.cleared := by
  simp [Graph.shape, List.getElem?_map]

theorem Graph.shape_length {V : Type} (g : Graph V) : g.shape.length = g.length := by
  simp [Graph.shape]

theorem Graph.shape_modify {V : Type} (f : Node V → Node V) (n : Nat) (g : Graph V)
    (hf : ∀ nd, (f nd).cleared = nd.cleared) :
    Graph.shape (List.modify f n g) = g.shape := by
  apply List.ext_getElem?
  intro m
  rw [Graph.shape_getElem?, Graph.shape_getElem?, List.getElem?_modify]
  cases g[m]? with
  | none => rfl
  | some nd =>
    by_cases hnm : n = m <;> simp [hnm, hf]

theorem Graph.shape_set {V : Type} (g : Graph V) (n : Nat) (nd x : Node V)
    (hn : g[n]? = some nd) (hx : x.cleared = nd.cleared) :
    Graph.shape (g.set n x) = g.shape := by
  apply List.ext_getElem?
  intro m
  rw [Graph.shape_getElem?, Graph.shape_getElem?, List.getElem?_set]
  by_cases hnm : n = m
  · subst hnm
    have hlt : n < g.length := by
      rcases List.getElem?_eq_some.1 hn with ⟨h, _⟩
      exact h
    simp [hlt, hn, hx]
  · simp [hnm]

theorem Graph.predecessors_of_shape {V : Type} {g t : Graph V} (h : t.shape = g.shape)
    (n : Nat) : t.predecessors n = g.predecessors n := by
  have h1 := Graph.shape_getElem? t n
  have h2 := Graph.shape_getElem? g n
  rw [h] at h1
  rw [h1] at h2
  unfold Graph.predecessors
  cases ht : t[n]? with
  | none =>
    cases hg : g[n]? with
    | none => rfl
    | some b => rw [ht, hg] at h2; simp at h2
  | some a =>
    cases hg : g[n]? with
    | none => rw [ht, hg] at h2; simp at h2
    | some b =>
      rw [ht, hg] at h2
      simp only [Option.map_some', Option.some.injEq] at h2
      have : a.kind = b.kind := by
        have := congrArg Node.kind h2
        simpa [Node.cleared] using this
      simp [this]

theorem Graph.successors_of_shape {V : Type} {g t : Graph V} (h : t.shape = g.shape)
    (n : Nat) : t.successors n = g.successors n := by
  have h1 := Graph.shape_getElem? t n
  have h2 := Graph.shape_getElem? g n
  rw [h] at h1
  rw [h1] at h2
  unfold Graph.successors
  cases ht : t[n]? with
  | none =>
    cases hg : g[n]? with
    | none => rfl
    | some b => rw [ht, hg] at h2; simp at h2
  | some a =>
    cases hg : g[n]? with
    | none => rw [ht, hg] at h2; simp at h2
    | some b =>
      rw [ht, hg] at h2
      simp only [Option.map_some', Option.some.injEq] at h2
      have : a.successors = b.successors := by
        have := congrArg Node.successors h2
        simpa [Node.cleared] using this
      simp [this]

theorem shape_PushEvent {V : Type} (g : Graph V) (n : Nat) (v : V) :
    (PushEvent g n v).shape = g.shape :=
  Graph.shape_modify _ n g (fun _ => rfl)

theorem LinkSuccessor_events {V : Type} (g : Graph V) (p s n : Nat) :
    (LinkSuccessor g p s).events n = g.events n := by
  unfold LinkSuccessor Graph.events
  rw [List.getElem?_modify]
  cases g[n]? with
  | none => rfl
  | some nd => by_cases h : p = n <;> simp [h]

theorem shape_Tick {V : Type} (g : Graph V) (n : Nat) : (Tick g n).shape = g.shape := by
  unfold Tick
  cases hn : g[n]? with
  | none => rfl
  | some nd =>
    simp only
    cases hk : nd.kind with
    | source => rfl
    | merge deps => exact Graph.shape_set g n nd _ hn (by simp [Node.cleared, hk])
    | filter src f => exact Graph.shape_set g n nd _ hn (by simp [Node.cleared, hk])
    | transform src f => exact Graph.shape_set g n nd _ hn (by simp [Node.cleared, hk])

theorem Tick_events_ne {V : Type} (g : Graph V) (n m : Nat) (h : m ≠ n) :
    (Tick g n).events m = g.events m := by
  unfold Tick
  cases hn : g[n]? with
  | none => rfl
  | some nd =>
    simp only
    cases hk : nd.kind <;> simp [Graph.events, List.getElem?_set, Ne.symm h]

theorem shape_clearEvents {V : Type} (g : Graph V) (ns : List Nat) :
    (clearEvents g ns).shape = g.shape := by
  unfold clearEvents
  induction ns generalizing g with
  | nil => rfl
  | cons n ns ih =>
    rw [List.foldl_cons, ih]
    exact Graph.shape_modify _ n g (fun _ => rfl)

theorem shape_apply {V : Type} (i : TransactionInput V) (g : Graph V) :
    (i.apply g).shape = g.shape := by
  unfold TransactionInput.apply
  generalize i.events = l
  induction l generalizing g with
  | nil => rfl
  | cons x xs ih =>
    rw [List.foldl_cons, ih, shape_PushEvent]


/-! The scheduler loop -/

theorem Turn.waiting_iff {V : Type} (t : Turn V) (n : Nat) :
    t.waiting n = true ↔ n ∈ t.frontier ∧ n ∉ t.evaluated := by
  simp [Turn.waiting]

theorem Turn.ready_iff {V : Type} (t : Turn V) (n : Nat) :
    t.ready n = true ↔ n ∉ t.evaluated ∧
      ∀ p ∈ t.graph.predecessors n, p ∈ t.evaluated ∨ t.pending p = false := by
  simp [Turn.ready, List.all_eq_true]

theorem Turn.mayFire_succ_iff {V : Type} (t : Turn V) (k p : Nat) :
    t.mayFire (k + 1) p = true ↔
      t.waiting p = true ∨ ∃ q ∈ t.graph.predecessors p, t.mayFire k q = true := by
  simp [Turn.mayFire, List.any_eq_true]

theorem Turn.mayFire_of_waiting {V : Type} (t : Turn V) (k p : Nat)
    (h : t.waiting p = true) : t.mayFire k p = true := by
  cases k with
  | zero => exact h
  | succ k => exact (Turn.mayFire_succ_iff t k p).2 (Or.inl h)

theorem Turn.pending_of_waiting {V : Type} (t : Turn V) (p : Nat)
    (h : t.waiting p = true) : t.pending p = true :=
  Turn.mayFire_of_waiting t (p + 1) p h

theorem propagate_induction {V : Type} (D : Engine) (P : Turn V → Prop)
    (hstep : ∀ t n, P t → n ∈ t.frontier → t.ready n = true → P (t.evaluate n)) :
    ∀ (fuel : Nat) (t : Turn V), P t → P (propagate D fuel t) := by
  intro fuel
  induction fuel with
  | zero => intro t ht; exact ht
  | succ k ih =>
    intro t ht
    unfold propagate
    simp only
    cases hp : D.pick (t.frontier.filter t.ready) with
    | none => exact ht
    | some n =>
      simp only
      by_cases hc : (t.frontier.filter t.ready).contains n = true
      · rw [if_pos hc]
        have hmem : n ∈ t.frontier.filter t.ready := by simpa using hc
        rcases List.mem_filter.1 hmem with ⟨h1, h2⟩
        exact ih _ (hstep t n ht h1 h2)
      · rw [if_neg hc]
        exact ht

theorem shape_evaluate {V : Type} (t : Turn V) (n : Nat) :
    (t.evaluate n).graph.shape = t.graph.shape := by
  simp [Turn.evaluate, shape_Tick]

theorem shape_propagate {V : Type} (D : Engine) (fuel : Nat) (t : Turn V) :
    (propagate D fuel t).graph.shape = t.graph.shape := by
  apply propagate_induction D (fun u => u.graph.shape = t.graph.shape)
  · intro u n hu _ _
    show (u.evaluate n).graph.shape = t.graph.shape
    rw [shape_evaluate, hu]
  · rfl

theorem shape_Propagate {V : Type} (D : Engine) (g : Graph V) (i : TransactionInput V) :
    (Propagate D g i).graph.shape = g.shape := by
  unfold Propagate
  rw [shape_propagate]
  exact shape_apply i g

/-! Buffers across a commit -/

theorem Graph.clean_iff {V : Type} (g : Graph V) :
    g.clean = true ↔ ∀ n, g.events n = [] := by
  unfold Graph.clean Graph.events
  rw [List.all_eq_true]
  constructor
  · intro h n
    cases hn : g[n]? with
    | none => rfl
    | some nd =>
      have hmem : nd ∈ g := List.mem_iff_getElem?.2 ⟨n, hn⟩
      have := h nd hmem
      simpa using this
  · intro h nd hnd
    rcases List.mem_iff_getElem?.1 hnd with ⟨n, hn⟩
    have := h n
    rw [hn] at this
    simp only at this
    simp [this]

theorem Graph.shape_eq_of_clean {V : Type} (g : Graph V) (h : g.clean = true) :
    g.shape = g := by
  apply List.ext_getElem?
  intro n
  rw [Graph.shape_getElem?]
  have hn := (Graph.clean_iff g).1 h n
  unfold Graph.events at hn
  cases hg : g[n]? with
  | none => rfl
  | some nd =>
    rw [hg] at hn
    simp only at hn
    simp only [Option.map_some', Option.some.injEq]
    cases nd with
    | mk k s e =>
      simp only at hn
      simp [Node.cleared, hn]

theorem events_modify_cleared {V : Type} (g : Graph V) (n m : Nat) :
    Graph.events (List.modify (fun nd : Node V => { nd with events := [] }) n g) m =
      if n = m then [] else g.events m := by
  unfold Graph.events
  rw [List.getElem?_modify]
  cases g[m]? with
  | none => simp
  | some nd => by_cases h : n = m <;> simp [h]

theorem events_clearEvents {V : Type} (g : Graph V) (ns : List Nat) (m : Nat) :
    (clearEvents g ns).events m = if m ∈ ns then [] else g.events m := by
  unfold clearEvents
  induction ns generalizing g with
  | nil => simp
  | cons n ns ih =>
    rw [List.foldl_cons, ih, events_modify_cleared]
    by_cases h1 : m ∈ ns
    · simp [h1]
    · by_cases h2 : n = m
      · simp [h2]
      · have h3 : ¬ m = n := fun h => h2 h.symm
        simp [h1, h2, h3]

theorem events_PushEvent_ne {V : Type} (g : Graph V) (n m : Nat) (v : V) (h : m ≠ n) :
    (PushEvent g n v).events m = g.events m := by
  unfold PushEvent Graph.events
  rw [List.getElem?_modify]
  cases g[m]? with
  | none => rfl
  | some nd => simp [Ne.symm h]

theorem events_apply_of_not_mem {V : Type} (i : TransactionInput V) (g : Graph V) (m : Nat)
    (h : m ∉ i.events.map Prod.fst) : (i.apply g).events m = g.events m := by
  unfold TransactionInput.apply
  revert h
  generalize i.events = l
  induction l generalizing g with
  | nil => intro _; rfl
  | cons x xs ih =>
    intro h
    rw [List.foldl_cons, ih]
    · apply events_PushEvent_ne
      intro hm
      apply h
      simp [hm]
    · intro hm
      apply h
      simp only [List.map_cons, List.mem_cons]
      exact Or.inr hm

theorem mem_foldl_addFrontier (l acc : List Nat) (m : Nat) :
    m ∈ l.foldl addFrontier acc ↔ m ∈ acc ∨ m ∈ l := by
  induction l generalizing acc with
  | nil => simp
  | cons x xs ih =>
    rw [List.foldl_cons, ih]
    unfold addFrontier
    by_cases hx : acc.contains x = true
    · rw [if_pos hx]
      have hx2 : x ∈ acc := by simpa using hx
      constructor
      · rintro (h | h)
        · exact Or.inl h
        · exact Or.inr (List.mem_cons_of_mem _ h)
      · rintro (h | h)
        · exact Or.inl h
        · rcases List.mem_cons.1 h with h | h
          · subst h; exact Or.inl hx2
          · exact Or.inr h
    · rw [if_neg hx]
      simp only [List.mem_append, List.mem_singleton, List.mem_cons]
      tauto

theorem mem_seeds {V : Type} (i : TransactionInput V) (m : Nat) :
    m ∈ i.seeds ↔ m ∈ i.events.map Prod.fst := by
  unfold TransactionInput.seeds
  rw [mem_foldl_addFrontier]
  simp

/-- Whatever holds events at the end of a propagation over a clean graph is a seed or was
evaluated. -/
theorem touched_Propagate {V : Type} (D : Engine) (g : Graph V) (i : TransactionInput V)
    (hg : g.clean = true) (m : Nat) (hm : (Propagate D g i).graph.events m ≠ []) :
    m ∈ i.seeds ++ (Propagate D g i).evaluated := by
  have key := propagate_induction D
    (fun u : Turn V => ∀ m, u.graph.events m ≠ [] → m ∈ i.seeds ++ u.evaluated)
    (by
      intro u n hu _ _ m hm
      by_cases hmn : m = n
      · subst hmn
        simp [Turn.evaluate]
      · have h1 : (u.evaluate n).graph.events m = u.graph.events m := by
          show (Tick u.graph n).events m = u.graph.events m
          exact Tick_events_ne u.graph n m hmn
        rw [h1] at hm
        have := hu m hm
        rcases List.mem_append.1 this with h | h
        · exact List.mem_append.2 (Or.inl h)
        · apply List.mem_append.2
          right
          show m ∈ u.evaluated ++ [n]
          exact List.mem_append.2 (Or.inl h))
    (fuelFor g i.seeds) { graph := i.apply g, frontier := i.seeds, evaluated := [] }
    (by
      intro m hm
      simp only [List.append_nil]
      by_contra hnot
      apply hm
      show (i.apply g).events m = []
      rw [events_apply_of_not_mem i g m (fun h => hnot ((mem_seeds i m).2 h))]
      exact (Graph.clean_iff g).1 hg m)
  exact key m hm

/-- A commit over a graph whose buffers are empty leaves the graph exactly as it was:
every buffer is empty again and the topology is untouched. -/
theorem CommitGraph_of_clean {V : Type} (D : Engine) (g : Graph V) (i : TransactionInput V)
    (hg : g.clean = true) : CommitGraph D g i = g := by
  have hshape : (CommitGraph D g i).shape = g.shape := by
    unfold CommitGraph
    simp only
    rw [shape_clearEvents, shape_Propagate]
  have hclean : (CommitGraph D g i).clean = true := by
    rw [Graph.clean_iff]
    intro m
    unfold CommitGraph
    simp only
    rw [events_clearEvents]
    by_cases hmem : m ∈ i.seeds ++ (Propagate D g i).evaluated
    · rw [if_pos hmem]
    · rw [if_neg hmem]
      by_contra hne
      exact hmem (touched_Propagate D g i hg m hne)
  rw [← Graph.shape_eq_of_clean _ hclean, hshape, Graph.shape_eq_of_clean g hg]

theorem Op.run_graph {Ty V : Type} (D : Engine) (op : Op Ty V) (d : Domain V)
    (hg : d.graph.clean = true) : (op.run D d).graph = d.graph := by
  cases op with
  | emit s e =>
    show (s.Emit D e d).graph = d.graph
    unfold REventSource.Emit
    cases hc : d.continuation with
    | some c => rfl
    | none =>
      cases hs : d.scopedInput with
      | some sc => rfl
      | none =>
        simp only [Transaction.create, Transaction.Commit]
        exact CommitGraph_of_clean D d.graph _ hg
  | beginScope =>
    show (BeginScope d).graph = d.graph
    unfold BeginScope
    cases d.scopedInput <;> rfl
  | commitScope =>
    show (CommitScope D d).graph = d.graph
    unfold CommitScope
    cases hs : d.scopedInput with
    | none => rfl
    | some sc =>
      simp only [Transaction.Commit]
      exact CommitGraph_of_clean D d.graph _ hg

theorem runOps_graph {Ty V : Type} (D : Engine) (ops : List (Op Ty V)) (d : Domain V)
    (hg : d.graph.clean = true) : (runOps D ops d).graph = d.graph := by
  unfold runOps
  induction ops generalizing d with
  | nil => rfl
  | cons op ops ih =>
    rw [List.foldl_cons]
    have h1 := Op.run_graph D op d hg
    rw [ih (op.run D d) (by rw [h1]; exact hg), h1]


/-! Graphs as the builders make them -/

theorem Graph.predecessors_nil_of_le {V : Type} (g : Graph V) (n : Nat) (h : g.length ≤ n) :
    g.predecessors n = [] := by
  unfold Graph.predecessors
  rw [List.getElem?_eq_none h]

theorem Graph.successors_nil_of_le {V : Type} (g : Graph V) (n : Nat) (h : g.length ≤ n) :
    g.successors n = [] := by
  unfold Graph.successors
  rw [List.getElem?_eq_none h]

theorem Graph.wf_iff {V : Type} (g : Graph V) :
    g.wf = true ↔
      (∀ n p, p ∈ g.predecessors n → p < n ∧ n ∈ g.successors p) ∧
      (∀ n s, s ∈ g.successors n → n ∈ g.predecessors s) := by
  unfold Graph.wf
  rw [List.all_eq_true]
  constructor
  · intro h
    constructor
    · intro n p hp
      by_cases hn : n < g.length
      · have := h n (List.mem_range.2 hn)
        simp at this
        exact this.1 p hp
      · rw [Graph.predecessors_nil_of_le g n (Nat.le_of_not_lt hn)] at hp
        cases hp
    · intro n s hs
      by_cases hn : n < g.length
      · have := h n (List.mem_range.2 hn)
        simp at this
        exact this.2 s hs
      · rw [Graph.successors_nil_of_le g n (Nat.le_of_not_lt hn)] at hs
        cases hs
  · intro h n _
    simp only [Bool.and_eq_true, List.all_eq_true, decide_eq_true_eq]
    refine ⟨fun p hp => ⟨(h.1 n p hp).1, ?_⟩, fun s hs => ?_⟩
    · simpa using (h.1 n p hp).2
    · simpa using h.2 n s hs

/-! Pending nodes -/

/-- With predecessors built before their successors, following longer chains of predecessors
than a node has room for changes nothing. -/
theorem Turn.mayFire_stable {V : Type} (t : Turn V)
    (hlt : ∀ n p, p ∈ t.graph.predecessors n → p < n) :
    ∀ k p, p + 1 ≤ k → (t.mayFire k p = true ↔ t.mayFire (p + 1) p = true) := by
  intro k
  induction k using Nat.strong_induction_on with
  | _ k ih =>
    intro p hk
    cases k with
    | zero => omega
    | succ k =>
      rw [Turn.mayFire_succ_iff, Turn.mayFire_succ_iff]
      constructor
      · rintro (h | ⟨q, hq, hf⟩)
        · exact Or.inl h
        · right
          refine ⟨q, hq, ?_⟩
          have hqp := hlt p q hq
          have h1 := (ih k (Nat.lt_succ_self k) q (by omega)).1 hf
          by_cases hpk : p = k
          · subst hpk; exact hf
          · exact (ih p (by omega) q (by omega)).2 h1
      · rintro (h | ⟨q, hq, hf⟩)
        · exact Or.inl h
        · right
          refine ⟨q, hq, ?_⟩
          have hqp := hlt p q hq
          by_cases hpk : p = k
          · subst hpk; exact hf
          · have h1 := (ih p (by omega) q (by omega)).1 hf
            exact (ih k (Nat.lt_succ_self k) q (by omega)).2 h1

/-- A node that may still fire has a waiting node at or before it in construction order. -/
theorem Turn.waiting_of_mayFire {V : Type} (t : Turn V)
    (hlt : ∀ n p, p ∈ t.graph.predecessors n → p < n) :
    ∀ k p, t.mayFire k p = true → ∃ m, t.waiting m = true ∧ m ≤ p := by
  intro k
  induction k with
  | zero => intro p h; exact ⟨p, h, Nat.le_refl p⟩
  | succ k ih =>
    intro p h
    rcases (Turn.mayFire_succ_iff t k p).1 h with h | ⟨q, hq, hf⟩
    · exact ⟨p, h, Nat.le_refl p⟩
    · rcases ih q hf with ⟨m, hm, hmq⟩
      exact ⟨m, hm, Nat.le_trans hmq (Nat.le_of_lt (hlt p q hq))⟩

theorem mem_frontier_evaluate {V : Type} (u : Turn V) (n s : Nat)
    (h : s ∈ (u.evaluate n).frontier) :
    (s ∈ u.frontier ∧ s ≠ n) ∨
      (s ∈ u.graph.successors n ∧ notified (Tick u.graph n) s = true) := by
  have h2 : s ∈ ((Graph.successors (Tick u.graph n) n).filter
      (notified (Tick u.graph n))).foldl addFrontier
      (u.frontier.filter (fun x => x != n)) := h
  rw [mem_foldl_addFrontier] at h2
  rcases h2 with h3 | h3
  · left
    rw [List.mem_filter] at h3
    exact ⟨h3.1, by simpa using h3.2⟩
  · right
    rw [List.mem_filter] at h3
    rw [Graph.successors_of_shape (shape_Tick u.graph n)] at h3
    exact h3

theorem mem_evaluated_evaluate {V : Type} (u : Turn V) (n m : Nat) :
    m ∈ (u.evaluate n).evaluated ↔ m ∈ u.evaluated ∨ m = n := by
  show m ∈ u.evaluated ++ [n] ↔ _
  simp

theorem predecessors_evaluate {V : Type} (u : Turn V) (n m : Nat) :
    (u.evaluate n).graph.predecessors m = u.graph.predecessors m :=
  Graph.predecessors_of_shape (shape_Tick u.graph n) m

/-- Whatever may fire after a step could already fire before it, through one more link. -/
theorem mayFire_evaluate {V : Type} (u : Turn V) (n : Nat) (hn : u.waiting n = true)
    (hsucc : ∀ s ∈ u.graph.successors n, n ∈ u.graph.predecessors s) :
    ∀ k p, (u.evaluate n).mayFire k p = true → u.mayFire (k + 1) p = true := by
  have hw : ∀ p, (u.evaluate n).waiting p = true → u.mayFire 1 p = true := by
    intro p hp
    rw [Turn.waiting_iff] at hp
    rcases hp with ⟨hfr, hev⟩
    rw [mem_evaluated_evaluate] at hev
    rcases mem_frontier_evaluate u n p hfr with h | h
    · apply Turn.mayFire_of_waiting
      rw [Turn.waiting_iff]
      exact ⟨h.1, fun hc => hev (Or.inl hc)⟩
    · rw [Turn.mayFire_succ_iff]
      right
      exact ⟨n, hsucc p h.1, hn⟩
  intro k
  induction k with
  | zero =>
    intro p hp
    exact hw p hp
  | succ k ih =>
    intro p hp
    rw [Turn.mayFire_succ_iff] at hp
    rcases hp with h | ⟨q, hq, hf⟩
    · have := hw p h
      rw [Turn.mayFire_succ_iff] at this ⊢
      rcases this with h1 | ⟨q, hq, hf⟩
      · exact Or.inl h1
      · exact Or.inr ⟨q, hq, Turn.mayFire_of_waiting u (k + 1) q hf⟩
    · rw [Turn.mayFire_succ_iff]
      right
      rw [predecessors_evaluate] at hq
      exact ⟨q, hq, ih q hf⟩

/-- In a graph as the builders make it, a node that is pending after a step was pending
before it. -/
theorem pending_evaluate {V : Type} (u : Turn V) (n : Nat) (hn : u.waiting n = true)
    (hlt : ∀ m p, p ∈ u.graph.predecessors m → p < m)
    (hsucc : ∀ s ∈ u.graph.successors n, n ∈ u.graph.predecessors s) (p : Nat)
    (h : (u.evaluate n).pending p = true) : u.pending p = true := by
  have h1 := mayFire_evaluate u n hn hsucc (p + 1) p h
  exact (Turn.mayFire_stable u hlt (p + 1 + 1) p (by omega)).1 h1
/-! Building nodes -/

theorem LinkSuccessor_getElem? {V : Type} (g : Graph V) (p s n : Nat) (nd : Node V)
    (h : g[n]? = some nd) :
    ∃ nd2, (LinkSuccessor g p s)[n]? = some nd2 ∧ nd2.kind = nd.kind ∧
      nd2.events = nd.events := by
  unfold LinkSuccessor
  rw [List.getElem?_modify, h]
  by_cases hpn : p = n
  · exact ⟨{ nd with successors := nd.successors ++ [s] }, by simp [hpn], rfl, rfl⟩
  · exact ⟨nd, by simp [hpn], rfl, rfl⟩

theorem foldl_LinkSuccessor_getElem? {V : Type} (ps : List Nat) (g : Graph V) (s n : Nat)
    (nd : Node V) (h : g[n]? = some nd) :
    ∃ nd2, (ps.foldl (fun acc p => LinkSuccessor acc p s) g)[n]? = some nd2 ∧
      nd2.kind = nd.kind ∧ nd2.events = nd.events := by
  induction ps generalizing g nd with
  | nil => exact ⟨nd, h, rfl, rfl⟩
  | cons p ps ih =>
    rw [List.foldl_cons]
    rcases LinkSuccessor_getElem? g p s n nd h with ⟨nd1, h1, hk1, he1⟩
    rcases ih (LinkSuccessor g p s) nd1 h1 with ⟨nd2, h2, hk2, he2⟩
    exact ⟨nd2, h2, hk2.trans hk1, he2.trans he1⟩

/-- The node made by `CreateNode` sits at the next free position, has the requested kind and
an empty buffer. -/
theorem CreateNode_node {V : Type} (g : Graph V) (kind : NodeKind V) :
    (CreateNode g kind).1 = g.length ∧
      ∃ nd, (CreateNode g kind).2[g.length]? = some nd ∧ nd.kind = kind ∧ nd.events = [] := by
  refine ⟨rfl, ?_⟩
  unfold CreateNode
  simp only
  have h0 : (g ++ [({ kind := kind, successors := [], events := [] } : Node V)])[g.length]? =
      some { kind := kind, successors := [], events := [] } := by
    simp
  rcases foldl_LinkSuccessor_getElem? kind.predecessors _ g.length g.length _ h0 with
    ⟨nd2, h2, hk2, he2⟩
  exact ⟨nd2, h2, hk2, he2⟩

theorem length_LinkSuccessor {V : Type} (g : Graph V) (p s : Nat) :
    (LinkSuccessor g p s).length = g.length := by
  unfold LinkSuccessor
  exact List.length_modify _ p g

theorem CreateNode_length {V : Type} (g : Graph V) (kind : NodeKind V) :
    (CreateNode g kind).2.length = g.length + 1 := by
  unfold CreateNode
  simp only
  have : ∀ (ps : List Nat) (h : Graph V),
      (ps.foldl (fun acc p => LinkSuccessor acc p g.length) h).length = h.length := by
    intro ps
    induction ps with
    | nil => intro h; rfl
    | cons p ps ih => intro h; rw [List.foldl_cons, ih, length_LinkSuccessor]
  rw [this]
  simp

theorem CreateNode_predecessors {V : Type} (g : Graph V) (kind : NodeKind V) :
    (CreateNode g kind).2.predecessors g.length = kind.predecessors := by
  rcases (CreateNode_node g kind).2 with ⟨nd, h, hk, _⟩
  unfold Graph.predecessors
  rw [h]
  simp [hk]

/-- In any graph state that still holds, at the position given by `CreateNode`, a node of the
kind `CreateNode` made, that node is present with this kind. -/
theorem node_of_kind_CreateNode {V : Type} (g t : Graph V) (kind : NodeKind V)
    (hkind : t.kind? g.length = (CreateNode g kind).2.kind? g.length) :
    ∃ nd, t[g.length]? = some nd ∧ nd.kind = kind := by
  rcases (CreateNode_node g kind).2 with ⟨nd, h, hk, _⟩
  unfold Graph.kind? at hkind
  rw [h] at hkind
  cases ht : t[g.length]? with
  | none => rw [ht] at hkind; simp at hkind
  | some a =>
    rw [ht] at hkind
    simp only [Option.map_some', Option.some.injEq] at hkind
    exact ⟨a, rfl, hkind.trans hk⟩

theorem Tick_events_merge {V : Type} (t : Graph V) (n : Nat) (nd : Node V) (deps : List Nat)
    (h : t[n]? = some nd) (hk : nd.kind = NodeKind.merge deps) :
    (Tick t n).events n = nd.events ++ (deps.map t.events).flatten := by
  have hlt : n < t.length := (List.getElem?_eq_some.1 h).1
  unfold Tick
  rw [h]
  simp only [hk]
  simp [Graph.events, List.getElem?_set, hlt, merge_Tick_eq]

theorem Tick_events_filter {V : Type} (t : Graph V) (n : Nat) (nd : Node V) (src : Nat)
    (f : V → Bool) (h : t[n]? = some nd) (hk : nd.kind = NodeKind.filter src f) :
    (Tick t n).events n = nd.events ++ (t.events src).filter f := by
  have hlt : n < t.length := (List.getElem?_eq_some.1 h).1
  unfold Tick
  rw [h]
  simp only [hk]
  simp [Graph.events, List.getElem?_set, hlt, filter_Tick_eq]

theorem Tick_events_transform {V : Type} (t : Graph V) (n : Nat) (nd : Node V) (src : Nat)
    (f : V → V) (h : t[n]? = some nd) (hk : nd.kind = NodeKind.transform src f) :
    (Tick t n).events n = nd.events ++ (t.events src).map f := by
  have hlt : n < t.length := (List.getElem?_eq_some.1 h).1
  unfold Tick
  rw [h]
  simp only [hk]
  simp [Graph.events, List.getElem?_set, hlt, transform_Tick_eq]

theorem events_of_getElem? {V : Type} (t : Graph V) (n : Nat) (nd : Node V)
    (h : t[n]? = some nd) : t.events n = nd.events := by
  unfold Graph.events
  rw [h]


/-! The scheduler runs to the end -/

theorem mem_successors_flatten {V : Type} (g : Graph V) (n s : Nat)
    (h : s ∈ g.successors n) : s ∈ (g.map (fun nd => nd.successors)).flatten := by
  unfold Graph.successors at h
  cases hn : g[n]? with
  | none => rw [hn] at h; simp at h
  | some nd =>
    rw [hn] at h
    simp only at h
    rw [List.mem_flatten]
    exact ⟨nd.successors, List.mem_map.2 ⟨nd, List.mem_iff_getElem?.2 ⟨n, hn⟩, rfl⟩, h⟩

theorem length_le_of_nodup_subset (l U : List Nat) (hnd : l.Nodup) (hsub : ∀ n ∈ l, n ∈ U) :
    l.length ≤ U.length :=
  (List.subperm_of_subset hnd hsub).length_le

theorem propagate_complete {V : Type} (D : Engine)
    (hpick : ∀ l : List Nat, l ≠ [] → ∃ n ∈ l, D.pick l = some n) (g : Graph V)
    (U : List Nat) (hU : ∀ n s, s ∈ g.successors n → s ∈ U) :
    ∀ (fuel : Nat) (t : Turn V), t.graph.shape = g.shape → t.evaluated.Nodup →
      (∀ n ∈ t.evaluated, n ∈ U) → (∀ n ∈ t.frontier, n ∈ U) →
      U.length ≤ t.evaluated.length + fuel →
      (propagate D fuel t).frontier.filter (propagate D fuel t).ready = [] := by
  intro fuel
  induction fuel with
  | zero =>
    intro t _ hnd hev hfr hlen
    show t.frontier.filter t.ready = []
    rw [List.eq_nil_iff_forall_not_mem]
    intro n hn
    rcases List.mem_filter.1 hn with ⟨hnf, hnr⟩
    rcases (Turn.ready_iff t n).1 hnr with ⟨hnot, _⟩
    have h1 : (n :: t.evaluated).Nodup := List.nodup_cons.2 ⟨hnot, hnd⟩
    have h2 : ∀ m ∈ n :: t.evaluated, m ∈ U := by
      intro m hm
      rcases List.mem_cons.1 hm with h | h
      · rw [h]; exact hfr n hnf
      · exact hev m h
    have h3 := length_le_of_nodup_subset _ U h1 h2
    simp only [List.length_cons] at h3
    omega
  | succ k ih =>
    intro t hs hnd hev hfr hlen
    unfold propagate
    simp only
    cases hp : D.pick (t.frontier.filter t.ready) with
    | none =>
      simp only
      by_contra hne
      rcases hpick _ hne with ⟨n, _, hn⟩
      rw [hp] at hn
      cases hn
    | some n =>
      simp only
      by_cases hc : (t.frontier.filter t.ready).contains n = true
      · rw [if_pos hc]
        have hmem : n ∈ t.frontier.filter t.ready := by simpa using hc
        rcases List.mem_filter.1 hmem with ⟨hnf, hnr⟩
        rcases (Turn.ready_iff t n).1 hnr with ⟨hnot, _⟩
        have hs2 : (t.evaluate n).graph.shape = g.shape := by
          rw [shape_evaluate, hs]
        apply ih (t.evaluate n) hs2
        · show (t.evaluated ++ [n]).Nodup
          rw [List.nodup_append]
          refine ⟨hnd, List.nodup_singleton n, ?_⟩
          intro x hx hx2
          have : x = n := by simpa using hx2
          subst this
          exact hnot hx
        · intro m hm
          have hm2 : m ∈ t.evaluated ++ [n] := hm
          rcases List.mem_append.1 hm2 with h | h
          · exact hev m h
          · have : m = n := by simpa using h
            rw [this]; exact hfr n hnf
        · intro m hm
          have hm2 : m ∈ ((Graph.successors (Tick t.graph n) n).filter
              (notified (Tick t.graph n))).foldl addFrontier
              (t.frontier.filter (fun x => x != n)) := hm
          rw [mem_foldl_addFrontier] at hm2
          rcases hm2 with h | h
          · exact hfr m (List.mem_filter.1 h).1
          · have h2 := (List.mem_filter.1 h).1
            rw [Graph.successors_of_shape ((shape_Tick t.graph n).trans hs)] at h2
            exact hU n m h2
        · show U.length ≤ (t.evaluated ++ [n]).length + k
          simp only [List.length_append, List.length_singleton]
          omega
      · rw [if_neg hc]
        by_contra hne
        rcases hpick _ hne with ⟨m, hm, hpm⟩
        rw [hp] at hpm
        cases hpm
        apply hc
        simpa using hm

/-- The fuel given by `Propagate` suffices: a propagation stops only when no node of the
frontier can be picked any more, provided the tie-break rule picks one of the ready nodes
whenever there is one. -/
theorem Propagate_complete {V : Type} (D : Engine)
    (hpick : ∀ l : List Nat, l ≠ [] → ∃ n ∈ l, D.pick l = some n) (g : Graph V)
    (i : TransactionInput V) :
    (Propagate D g i).frontier.filter (Propagate D g i).ready = [] := by
  unfold Propagate
  apply propagate_complete D hpick g (i.seeds ++ (g.map (fun nd => nd.successors)).flatten)
  · intro n s h
    exact List.mem_append.2 (Or.inr (mem_successors_flatten g n s h))
  · exact shape_apply i g
  · exact List.nodup_nil
  · intro n hn
    cases hn
  · intro n hn
    exact List.mem_append.2 (Or.inl hn)
  · simp only [fuelFor, List.length_append, List.length_flatten, List.map_map, List.length_nil,
      Function.comp_def]
    omega

/-- The first-in-first-out rule picks a ready node whenever there is one. -/
theorem Engine.fifo_picks (l : List Nat) (h : l ≠ []) :
    ∃ n ∈ l, Engine.fifo.pick l = some n := by
  cases l with
  | nil => exact absurd rfl h
  | cons x xs => exact ⟨x, List.mem_cons_self x xs, rfl⟩

/-! Graphs made by the builders start with empty buffers -/

theorem CreateNode_events {V : Type} (g : Graph V) (kind : NodeKind V) (n : Nat) :
    (CreateNode g kind).2.events n = g.events n := by
  unfold CreateNode
  simp only
  have h1 : ∀ (ps : List Nat) (h : Graph V),
      (ps.foldl (fun acc p => LinkSuccessor acc p g.length) h).events n = h.events n := by
    intro ps
    induction ps with
    | nil => intro h; rfl
    | cons p ps ih => intro h; rw [List.foldl_cons, ih, LinkSuccessor_events]
  rw [h1]
  unfold Graph.events
  rw [List.getElem?_append]
  by_cases hlt : n < g.length
  · rw [if_pos hlt]
  · rw [if_neg hlt]
    have hnone : g[n]? = none := List.getElem?_eq_none (Nat.le_of_not_lt hlt)
    rw [hnone]
    cases hk : n - g.length with
    | zero => simp
    | succ m => simp

theorem CreateNode_clean {V : Type} (g : Graph V) (kind : NodeKind V) (h : g.clean = true) :
    (CreateNode g kind).2.clean = true := by
  rw [Graph.clean_iff] at h ⊢
  intro n
  rw [CreateNode_events]
  exact h n

/-! The order of evaluation -/

/-- One scheduler step keeps this: a predecessor of an evaluated node was evaluated or cannot
fire any more. -/
theorem unfired_evaluate {V : Type} (g : Graph V) (u : Turn V) (n : Nat)
    (hshape : u.graph.shape = g.shape) (hwf : g.wf = true) (hfr : n ∈ u.frontier)
    (hready : u.ready n = true)
    (hK : ∀ m ∈ u.evaluated, ∀ p ∈ g.predecessors m,
      p ∈ u.evaluated ∨ u.pending p = false) :
    ∀ m ∈ (u.evaluate n).evaluated, ∀ p ∈ g.predecessors m,
      p ∈ (u.evaluate n).evaluated ∨ (u.evaluate n).pending p = false := by
  rcases (Graph.wf_iff g).1 hwf with ⟨w1, w2⟩
  rcases (Turn.ready_iff u n).1 hready with ⟨hnot, hpreds⟩
  have hwait : u.waiting n = true := (Turn.waiting_iff u n).2 ⟨hfr, hnot⟩
  have hlt : ∀ m p, p ∈ u.graph.predecessors m → p < m := by
    intro m p hp
    rw [Graph.predecessors_of_shape hshape] at hp
    exact (w1 m p hp).1
  have hsucc : ∀ s ∈ u.graph.successors n, n ∈ u.graph.predecessors s := by
    intro s hs
    rw [Graph.successors_of_shape hshape] at hs
    rw [Graph.predecessors_of_shape hshape]
    exact w2 n s hs
  intro m hm p hp
  have hold : p ∈ u.evaluated ∨ u.pending p = false := by
    rcases (mem_evaluated_evaluate u n m).1 hm with h | h
    · exact hK m h p hp
    · subst h
      apply hpreds
      rw [Graph.predecessors_of_shape hshape]
      exact hp
  rcases hold with h | h
  · exact Or.inl ((mem_evaluated_evaluate u n p).2 (Or.inl h))
  · right
    cases hc : (u.evaluate n).pending p with
    | false => rfl
    | true =>
      have := pending_evaluate u n hwait hlt hsucc p hc
      rw [h] at this
      cases this

/-- The invariant of the scheduler loop over a graph as the builders make it: no node is
evaluated twice, a predecessor of an evaluated node was evaluated before it or cannot fire
any more, and the frontier holds no evaluated node. -/
theorem glitch_invariant {V : Type} (D : Engine) (g : Graph V) (hwf : g.wf = true)
    (fuel : Nat) (t : Turn V) (h1 : t.graph.shape = g.shape) (h0 : t.evaluated = []) :
    (propagate D fuel t).evaluated.Nodup ∧
    (∀ m ∈ (propagate D fuel t).evaluated, ∀ p ∈ g.predecessors m,
      p ∈ (propagate D fuel t).evaluated ∨ (propagate D fuel t).pending p = false) ∧
    (∀ l1 n l2, (propagate D fuel t).evaluated = l1 ++ n :: l2 →
      ∀ p ∈ g.predecessors n, p ∈ (propagate D fuel t).evaluated → p ∈ l1) ∧
    (∀ s ∈ (propagate D fuel t).frontier, s ∉ (propagate D fuel t).evaluated) := by
  rcases (Graph.wf_iff g).1 hwf with ⟨w1, w2⟩
  have key := propagate_induction D
    (fun u : Turn V => u.graph.shape = g.shape ∧ u.evaluated.Nodup ∧
      (∀ m ∈ u.evaluated, ∀ p ∈ g.predecessors m, p ∈ u.evaluated ∨ u.pending p = false) ∧
      (∀ l1 n l2, u.evaluated = l1 ++ n :: l2 →
        ∀ p ∈ g.predecessors n, p ∈ u.evaluated → p ∈ l1) ∧
      (∀ s ∈ u.frontier, s ∉ u.evaluated))
    (by
      intro u n hu hfr hready
      rcases hu with ⟨i1, i2, i3, i4, i5⟩
      rcases (Turn.ready_iff u n).1 hready with ⟨hnot, hpreds⟩
      have hwait : u.waiting n = true := (Turn.waiting_iff u n).2 ⟨hfr, hnot⟩
      have hpend : u.pending n = true := Turn.pending_of_waiting u n hwait
      have hnotpred : ∀ m ∈ u.evaluated, n ∉ g.predecessors m := by
        intro m hm hc
        rcases i3 m hm n hc with h | h
        · exact hnot h
        · rw [hpend] at h
          cases h
      have hself : n ∉ g.predecessors n := by
        intro hc
        have := (w1 n n hc).1
        omega
      refine ⟨by rw [shape_evaluate, i1], ?_, unfired_evaluate g u n i1 hwf hfr hready i3,
        ?_, ?_⟩
      · show (u.evaluated ++ [n]).Nodup
        rw [List.nodup_append]
        refine ⟨i2, List.nodup_singleton n, ?_⟩
        intro x hx hx2
        have : x = n := by simpa using hx2
        subst this
        exact hnot hx
      · intro l1 m l2 heq p hp hpe
        have heq2 : u.evaluated ++ [n] = l1 ++ m :: l2 := heq
        rcases List.eq_nil_or_concat l2 with hnil | ⟨l2a, x, hl2⟩
        · subst hnil
          have h3 : u.evaluated ++ [n] = l1 ++ [m] := heq2
          obtain ⟨h4, h5⟩ := List.append_inj' h3 rfl
          have h6 : n = m := by simpa using h5
          subst h6
          rw [← h4]
          rcases (mem_evaluated_evaluate u n p).1 hpe with h | h
          · exact h
          · subst h
            exact absurd hp hself
        · subst hl2
          have h3 : u.evaluated ++ [n] = (l1 ++ m :: l2a) ++ [x] := by
            rw [heq2]; simp
          obtain ⟨h4, _⟩ := List.append_inj' h3 rfl
          have hm : m ∈ u.evaluated := by rw [h4]; simp
          rcases (mem_evaluated_evaluate u n p).1 hpe with h | h
          · exact i4 l1 m l2a h4 p hp h
          · subst h
            exact absurd hp (hnotpred m hm)
      · intro s hs hse
        rcases (mem_evaluated_evaluate u n s).1 hse with h | h
        · rcases mem_frontier_evaluate u n s hs with h2 | h2
          · exact i5 s h2.1 h
          · have hs2 : s ∈ g.successors n := by
              rw [← Graph.successors_of_shape i1]
              exact h2.1
            exact hnotpred s h (w2 n s hs2)
        · subst h
          rcases mem_frontier_evaluate u s s hs with h2 | h2
          · exact h2.2 rfl
          · have hs2 : s ∈ g.successors s := by
              rw [← Graph.successors_of_shape i1]
              exact h2.1
            exact hself (w2 s s hs2))
    fuel t
    (by
      refine ⟨h1, ?_, ?_, ?_, ?_⟩
      · rw [h0]
        exact List.nodup_nil
      · rw [h0]
        intro m hm
        cases hm
      · rw [h0]
        intro l1 n l2 heq
        simp at heq
      · rw [h0]
        intro s _ hs
        cases hs)
  obtain ⟨_, k2, k3, k4, k5⟩ := key
  exact ⟨k2, k3, k4, k5⟩

/-- Over a graph as the builders make it the propagation ends with an empty frontier: every
node that was notified has been evaluated. -/
theorem Propagate_frontier_empty {V : Type} (D : Engine)
    (hpick : ∀ l : List Nat, l ≠ [] → ∃ n ∈ l, D.pick l = some n) (g : Graph V)
    (hwf : g.wf = true) (i : TransactionInput V) : (Propagate D g i).frontier = [] := by
  rcases (Graph.wf_iff g).1 hwf with ⟨w1, _⟩
  have hdone := Propagate_complete D hpick g i
  have hshape := shape_Propagate D g i
  have hinv := glitch_invariant D g hwf (fuelFor g i.seeds)
    { graph := i.apply g, frontier := i.seeds, evaluated := [] } (shape_apply i g) rfl
  have hfd : ∀ s ∈ (Propagate D g i).frontier, s ∉ (Propagate D g i).evaluated := hinv.2.2.2
  have hlt : ∀ m p, p ∈ (Propagate D g i).graph.predecessors m → p < m := by
    intro m p hp
    rw [Graph.predecessors_of_shape hshape] at hp
    exact (w1 m p hp).1
  have hnone : ∀ m, (Propagate D g i).waiting m = true → False := by
    intro m
    induction m using Nat.strong_induction_on with
    | _ m ih =>
      intro hm
      rcases (Turn.waiting_iff _ m).1 hm with ⟨hmf, hme⟩
      have hnr : ¬ (Propagate D g i).ready m = true := by
        intro hr
        have hmem : m ∈ (Propagate D g i).frontier.filter (Propagate D g i).ready :=
          List.mem_filter.2 ⟨hmf, hr⟩
        rw [hdone] at hmem
        cases hmem
      rw [Turn.ready_iff] at hnr
      have hex : ∃ p ∈ (Propagate D g i).graph.predecessors m,
          (Propagate D g i).pending p = true := by
        by_contra hc
        apply hnr
        refine ⟨hme, ?_⟩
        intro p hp
        right
        cases hpe : (Propagate D g i).pending p with
        | false => rfl
        | true => exact absurd ⟨p, hp, hpe⟩ hc
      rcases hex with ⟨p, hp, hpe⟩
      rcases Turn.waiting_of_mayFire _ hlt (p + 1) p hpe with ⟨m2, hm2, hle⟩
      have := hlt m p hp
      exact ih m2 (by omega) hm2
  rw [List.eq_nil_iff_forall_not_mem]
  intro s hs
  exact hnone s ((Turn.waiting_iff _ s).2 ⟨hs, hfd s hs⟩)
/-! The buffers at the end of a propagation -/

theorem Graph.kind?_of_shape {V : Type} {g t : Graph V} (h : t.shape = g.shape) (n : Nat) :
    t.kind? n = g.kind? n := by
  have h1 := Graph.shape_getElem? t n
  have h2 := Graph.shape_getElem? g n
  rw [h] at h1
  rw [h1] at h2
  unfold Graph.kind?
  cases ht : t[n]? with
  | none =>
    cases hg : g[n]? with
    | none => rfl
    | some b => rw [ht, hg] at h2; simp at h2
  | some a =>
    cases hg : g[n]? with
    | none => rw [ht, hg] at h2; simp at h2
    | some b =>
      rw [ht, hg] at h2
      simp only [Option.map_some', Option.some.injEq] at h2
      have : a.kind = b.kind := by
        have := congrArg Node.kind h2
        simpa [Node.cleared] using this
      simp [this]

theorem Graph.predecessors_eq_kind? {V : Type} (g : Graph V) (n : Nat) :
    g.predecessors n = match g.kind? n with
      | some k => k.predecessors
      | none => [] := by
  unfold Graph.predecessors Graph.kind?
  cases g[n]? <;> rfl

theorem Graph.getElem?_of_kind? {V : Type} (g : Graph V) (n : Nat) (k : NodeKind V)
    (h : g.kind? n = some k) : ∃ nd, g[n]? = some nd ∧ nd.kind = k := by
  unfold Graph.kind? at h
  cases hn : g[n]? with
  | none => rw [hn] at h; simp at h
  | some nd =>
    rw [hn] at h
    simp only [Option.map_some', Option.some.injEq] at h
    exact ⟨nd, rfl, h⟩

theorem map_events_Tick {V : Type} (t : Graph V) (n : Nat) (deps : List Nat)
    (h : n ∉ deps) : deps.map (Tick t n).events = deps.map t.events := by
  apply List.map_congr_left
  intro d hd
  apply Tick_events_ne
  intro hdn
  exact h (hdn ▸ hd)

/-- Evaluating a node whose buffer is empty, and which is not its own predecessor, settles
it. -/
theorem settled_Tick_self {V : Type} (t : Graph V) (n : Nat) (hempty : t.events n = [])
    (hself : n ∉ t.predecessors n) : (Tick t n).settled n := by
  unfold Graph.settled
  rw [Graph.kind?_of_shape (shape_Tick t n)]
  rw [Graph.predecessors_eq_kind?] at hself
  cases hk : t.kind? n with
  | none => trivial
  | some k =>
    rw [hk] at hself
    rcases Graph.getElem?_of_kind? t n k hk with ⟨nd, hnd, hkind⟩
    have hev : nd.events = [] := by rw [← events_of_getElem? t n nd hnd]; exact hempty
    cases k with
    | source => trivial
    | merge deps =>
      simp only
      rw [Tick_events_merge t n nd deps hnd hkind, hev, map_events_Tick t n deps hself]
      simp
    | filter src f =>
      simp only
      have hne : src ≠ n := by
        intro h; apply hself; simp [NodeKind.predecessors, h]
      rw [Tick_events_filter t n nd src f hnd hkind, hev, Tick_events_ne t n src hne]
      simp
    | transform src f =>
      simp only
      have hne : src ≠ n := by
        intro h; apply hself; simp [NodeKind.predecessors, h]
      rw [Tick_events_transform t n nd src f hnd hkind, hev, Tick_events_ne t n src hne]
      simp

/-- Evaluating a node leaves settled every other node it is not a predecessor of. -/
theorem settled_Tick_other {V : Type} (t : Graph V) (n m : Nat) (hm : t.settled m)
    (hne : m ≠ n) (hpre : n ∉ t.predecessors m) : (Tick t n).settled m := by
  unfold Graph.settled at hm ⊢
  rw [Graph.kind?_of_shape (shape_Tick t n)]
  rw [Graph.predecessors_eq_kind?] at hpre
  cases hk : t.kind? m with
  | none => trivial
  | some k =>
    rw [hk] at hm hpre
    cases k with
    | source => trivial
    | merge deps =>
      simp only at hm ⊢
      rw [Tick_events_ne t n m hne, map_events_Tick t n deps hpre]
      exact hm
    | filter src f =>
      simp only at hm ⊢
      have hsrc : src ≠ n := by
        intro h; apply hpre; simp [NodeKind.predecessors, h]
      rw [Tick_events_ne t n m hne, Tick_events_ne t n src hsrc]
      exact hm
    | transform src f =>
      simp only at hm ⊢
      have hsrc : src ≠ n := by
        intro h; apply hpre; simp [NodeKind.predecessors, h]
      rw [Tick_events_ne t n m hne, Tick_events_ne t n src hsrc]
      exact hm

theorem mem_evaluate_frontier {V : Type} (u : Turn V) (n s : Nat)
    (h : s ∈ u.frontier ∨ s ∈ u.evaluated) :
    s ∈ (u.evaluate n).frontier ∨ s ∈ (u.evaluate n).evaluated := by
  by_cases hsn : s = n
  · right
    show s ∈ u.evaluated ++ [n]
    simp [hsn]
  · rcases h with h | h
    · left
      show s ∈ ((Graph.successors (Tick u.graph n) n).filter
          (notified (Tick u.graph n))).foldl addFrontier (u.frontier.filter (fun x => x != n))
      rw [mem_foldl_addFrontier]
      left
      rw [List.mem_filter]
      exact ⟨h, by simpa using hsn⟩
    · right
      show s ∈ u.evaluated ++ [n]
      exact List.mem_append.2 (Or.inl h)

theorem Tick_events_nonempty {V : Type} (g : Graph V) (n p : Nat) (h : g.events p ≠ []) :
    (Tick g n).events p ≠ [] := by
  by_cases hpn : p = n
  · subst hpn
    cases hk : g.kind? p with
    | none =>
      have : Tick g p = g := by
        unfold Tick
        unfold Graph.kind? at hk
        cases hg : g[p]? with
        | none => rfl
        | some nd => rw [hg] at hk; simp at hk
      rw [this]
      exact h
    | some k =>
      rcases Graph.getElem?_of_kind? g p k hk with ⟨nd, hnd, hkind⟩
      have hev : nd.events ≠ [] := by
        rw [← events_of_getElem? g p nd hnd]
        exact h
      cases k with
      | source =>
        have : Tick g p = g := by
          unfold Tick
          rw [hnd]
          simp only [hkind]
        rw [this]
        exact h
      | merge deps =>
        rw [Tick_events_merge g p nd deps hnd hkind]
        exact List.append_ne_nil_of_left_ne_nil hev _
      | filter src f =>
        rw [Tick_events_filter g p nd src f hnd hkind]
        exact List.append_ne_nil_of_left_ne_nil hev _
      | transform src f =>
        rw [Tick_events_transform g p nd src f hnd hkind]
        exact List.append_ne_nil_of_left_ne_nil hev _
  · rw [Tick_events_ne g n p hpn]
    exact h

/-- A node that holds nothing, and whose predecessors hold nothing, is settled. -/
theorem settled_of_empty {V : Type} (g : Graph V) (m : Nat) (hm : g.events m = [])
    (hpre : ∀ d ∈ g.predecessors m, g.events d = []) : g.settled m := by
  unfold Graph.settled
  rw [Graph.predecessors_eq_kind?] at hpre
  cases hk : g.kind? m with
  | none => trivial
  | some k =>
    rw [hk] at hpre
    cases k with
    | source => trivial
    | merge deps =>
      simp only
      rw [hm]
      symm
      rw [List.flatten_eq_nil_iff]
      intro l hl
      rcases List.mem_map.1 hl with ⟨d, hd, hdl⟩
      rw [← hdl]
      exact hpre d hd
    | filter src f =>
      simp only
      rw [hm, hpre src (by simp [NodeKind.predecessors])]
      rfl
    | transform src f =>
      simp only
      rw [hm, hpre src (by simp [NodeKind.predecessors])]
      rfl

theorem predecessors_of_source {V : Type} (g : Graph V) (n : Nat)
    (h : g.kind? n = some NodeKind.source) : g.predecessors n = [] := by
  rw [Graph.predecessors_eq_kind?, h]
  rfl

/-- The invariant of the scheduler loop over any graph with empty buffers whose seeds are
Source nodes: seeds and notified successors of evaluated nodes are in the frontier until they
are evaluated, nodes neither evaluated nor seeded hold nothing, and an evaluated node with a
single predecessor was evaluated after it and is settled. -/
theorem propagate_invariant {V : Type} (D : Engine) (g : Graph V) (S : List Nat)
    (hS : ∀ s ∈ S, g.kind? s = some NodeKind.source) (fuel : Nat) (t : Turn V)
    (h1 : t.graph.shape = g.shape) (h0 : t.evaluated = []) (hfr : t.frontier = S)
    (h6 : ∀ n, n ∉ S → t.graph.events n = []) :
    (∀ s ∈ S, s ∈ (propagate D fuel t).frontier ∨ s ∈ (propagate D fuel t).evaluated) ∧
    (∀ n ∈ (propagate D fuel t).evaluated, (propagate D fuel t).graph.events n ≠ [] →
      ∀ s ∈ g.successors n, n ∈ g.predecessors s →
        s ∈ (propagate D fuel t).frontier ∨ s ∈ (propagate D fuel t).evaluated) ∧
    (∀ n ∈ (propagate D fuel t).evaluated, ∀ x, g.predecessors n = [x] →
      (propagate D fuel t).graph.settled n) ∧
    (∀ n, n ∉ (propagate D fuel t).evaluated → n ∉ S →
      (propagate D fuel t).graph.events n = []) := by
  have key := propagate_induction D
    (fun u : Turn V => u.graph.shape = g.shape ∧
      (∀ s ∈ S, s ∈ u.frontier ∨ s ∈ u.evaluated) ∧
      (∀ n ∈ u.evaluated, u.graph.events n ≠ [] →
        ∀ s ∈ g.successors n, n ∈ g.predecessors s → s ∈ u.frontier ∨ s ∈ u.evaluated) ∧
      (∀ n ∈ u.evaluated, ∀ x, g.predecessors n = [x] → u.graph.settled n) ∧
      (∀ n, n ∉ u.evaluated → n ∉ S → u.graph.events n = []) ∧
      (∀ n ∈ u.frontier, n ∈ S ∨ ∃ p ∈ g.predecessors n, u.graph.events p ≠ []) ∧
      (∀ n ∈ u.evaluated, ∀ x, g.predecessors n = [x] → x ∈ u.evaluated))
    (by
      intro u n hu hnf hready
      rcases hu with ⟨i1, i3, i4, i5, i6, i7, i8⟩
      rcases (Turn.ready_iff u n).1 hready with ⟨hnot, hpreds⟩
      have hpre : ∀ m, u.graph.predecessors m = g.predecessors m :=
        fun m => Graph.predecessors_of_shape i1 m
      have hshape2 : (Tick u.graph n).shape = g.shape := (shape_Tick u.graph n).trans i1
      have hmem : ∀ m, m ∈ (u.evaluate n).evaluated ↔ m ∈ u.evaluated ∨ m = n :=
        mem_evaluated_evaluate u n
      have hsingle : ∀ x, g.predecessors n = [x] → x ∈ u.evaluated := by
        intro x hx
        have hxe : u.graph.events x ≠ [] := by
          rcases i7 n hnf with h | ⟨p, hp, hpe⟩
          · rw [predecessors_of_source g n (hS n h)] at hx
            cases hx
          · rw [hx] at hp
            have : p = x := by simpa using hp
            rw [← this]
            exact hpe
        by_contra hxn
        have hxS : x ∈ S := by
          by_contra hxS
          exact hxe (i6 x hxn hxS)
        have hxf : x ∈ u.frontier := by
          rcases i3 x hxS with h | h
          · exact h
          · exact absurd h hxn
        have hpend := Turn.pending_of_waiting u x ((Turn.waiting_iff u x).2 ⟨hxf, hxn⟩)
        rcases hpreds x (by rw [hpre, hx]; simp) with h | h
        · exact hxn h
        · rw [hpend] at h
          cases h
      refine ⟨by rw [shape_evaluate, i1], ?_, ?_, ?_, ?_, ?_, ?_⟩
      · intro s hs
        exact mem_evaluate_frontier u n s (i3 s hs)
      · intro m hm hev s hs hms
        rcases (hmem m).1 hm with h | h
        · have hmn : m ≠ n := fun e => hnot (e ▸ h)
          have hev2 : u.graph.events m ≠ [] := by
            have : (u.evaluate n).graph.events m = u.graph.events m :=
              Tick_events_ne u.graph n m hmn
            rw [← this]
            exact hev
          exact mem_evaluate_frontier u n s (i4 m h hev2 s hs hms)
        · subst h
          by_cases hsm : s = m
          · right
            rw [hmem]
            exact Or.inr hsm
          · left
            show s ∈ ((Graph.successors (Tick u.graph m) m).filter
              (notified (Tick u.graph m))).foldl addFrontier
              (u.frontier.filter (fun x => x != m))
            rw [mem_foldl_addFrontier]
            right
            rw [List.mem_filter]
            refine ⟨?_, ?_⟩
            · rw [Graph.successors_of_shape hshape2]
              exact hs
            · unfold notified
              rw [Graph.predecessors_of_shape hshape2, List.any_eq_true]
              refine ⟨m, hms, ?_⟩
              have hev3 : (Tick u.graph m).events m ≠ [] := hev
              cases hc : (Tick u.graph m).events m with
              | nil => exact absurd hc hev3
              | cons a as => rfl
      · intro m hm x hx
        show (Tick u.graph n).settled m
        rcases (hmem m).1 hm with h | h
        · have hmn : m ≠ n := fun e => hnot (e ▸ h)
          apply settled_Tick_other u.graph n m (i5 m h x hx) hmn
          intro hc
          rw [hpre, hx] at hc
          have : n = x := by simpa using hc
          rw [this] at hnot
          exact hnot (i8 m h x hx)
        · subst h
          have hmS : m ∉ S := by
            intro hc
            rw [predecessors_of_source g m (hS m hc)] at hx
            cases hx
          apply settled_Tick_self u.graph m (i6 m hnot hmS)
          intro hc
          rw [hpre, hx] at hc
          have hmx : m = x := by simpa using hc
          have hxe := hsingle x hx
          rw [← hmx] at hxe
          exact hnot hxe
      · intro m hm hmS
        have hm2 : m ∉ u.evaluated ∧ m ≠ n := by
          constructor
          · intro h; exact hm ((hmem m).2 (Or.inl h))
          · intro h; exact hm ((hmem m).2 (Or.inr h))
        show (Tick u.graph n).events m = []
        rw [Tick_events_ne u.graph n m hm2.2]
        exact i6 m hm2.1 hmS
      · intro s hs
        rcases mem_frontier_evaluate u n s hs with h | h
        · rcases i7 s h.1 with h2 | ⟨p, hp, hpe⟩
          · exact Or.inl h2
          · exact Or.inr ⟨p, hp, Tick_events_nonempty u.graph n p hpe⟩
        · right
          have hn := h.2
          unfold notified at hn
          rw [Graph.predecessors_of_shape hshape2, List.any_eq_true] at hn
          rcases hn with ⟨p, hp, hpe⟩
          refine ⟨p, hp, ?_⟩
          intro hc
          have hc2 : (Tick u.graph n).events p = [] := hc
          rw [hc2] at hpe
          simp at hpe
      · intro m hm x hx
        rw [hmem]
        left
        rcases (hmem m).1 hm with h | h
        · exact i8 m h x hx
        · subst h
          exact hsingle x hx)
    fuel t
    (by
      refine ⟨h1, ?_, ?_, ?_, ?_, ?_, ?_⟩
      · intro s hs
        left
        rw [hfr]
        exact hs
      · rw [h0]
        intro n hn
        cases hn
      · rw [h0]
        intro n hn
        cases hn
      · intro n _ hn
        exact h6 n hn
      · intro n hn
        left
        rw [← hfr]
        exact hn
      · rw [h0]
        intro n hn
        cases hn)
  obtain ⟨_, k3, k4, k5, k6, _, _⟩ := key
  exact ⟨k3, k4, k5, k6⟩

/-- The state at the end of the propagation of a transaction over a graph with empty buffers,
all of whose inputs are for Source nodes: an evaluated node with a single predecessor is
settled, a node neither evaluated nor seeded holds nothing, every seed was evaluated, and a
successor of an evaluated node that holds events is in the frontier or was evaluated. -/
theorem Propagate_settled {V : Type} (D : Engine)
    (hpick : ∀ l : List Nat, l ≠ [] → ∃ n ∈ l, D.pick l = some n) (g : Graph V)
    (i : TransactionInput V) (hclean : g.clean = true)
    (hin : ∀ x ∈ i.events, g.kind? x.1 = some NodeKind.source) :
    (∀ n ∈ (Propagate D g i).evaluated, ∀ x, g.predecessors n = [x] →
      (Propagate D g i).graph.settled n) ∧
    (∀ n, n ∉ (Propagate D g i).evaluated → (Propagate D g i).graph.events n = []) ∧
    (∀ s ∈ i.seeds, s ∈ (Propagate D g i).evaluated) ∧
    (∀ n ∈ (Propagate D g i).evaluated, (Propagate D g i).graph.events n ≠ [] →
      ∀ s ∈ g.successors n, n ∈ g.predecessors s →
        s ∈ (Propagate D g i).frontier ∨ s ∈ (Propagate D g i).evaluated) := by
  have hS : ∀ s ∈ i.seeds, g.kind? s = some NodeKind.source := by
    intro s hs
    rcases List.mem_map.1 ((mem_seeds i s).1 hs) with ⟨x, hx, hxs⟩
    rw [← hxs]
    exact hin x hx
  have hinv := propagate_invariant D g i.seeds hS (fuelFor g i.seeds)
    { graph := i.apply g, frontier := i.seeds, evaluated := [] } (shape_apply i g) rfl rfl
    (by
      intro n hn
      show (i.apply g).events n = []
      rw [events_apply_of_not_mem i g n (fun h => hn ((mem_seeds i n).2 h))]
      exact (Graph.clean_iff g).1 hclean n)
  have hdone := Propagate_complete D hpick g i
  have hshape := shape_Propagate D g i
  rcases hinv with ⟨k3, k4, k5, k6⟩
  have hseeds : ∀ s ∈ i.seeds, s ∈ (Propagate D g i).evaluated := by
    intro s hs
    rcases k3 s hs with h | h
    · by_contra hnot
      have hready : (Propagate D g i).ready s = true := by
        rw [Turn.ready_iff]
        refine ⟨hnot, ?_⟩
        intro p hp
        rw [Graph.predecessors_of_shape hshape, predecessors_of_source g s (hS s hs)] at hp
        cases hp
      have hmem : s ∈ (Propagate D g i).frontier.filter (Propagate D g i).ready :=
        List.mem_filter.2 ⟨h, hready⟩
      rw [hdone] at hmem
      cases hmem
    · exact h
  refine ⟨k5, ?_, hseeds, k4⟩
  intro n hn
  apply k6 n hn
  intro hs
  exact hn (hseeds n hs)

/-- At the end of such a propagation every node was evaluated or holds nothing. -/
theorem evaluated_or_empty {V : Type} (D : Engine)
    (hpick : ∀ l : List Nat, l ≠ [] → ∃ n ∈ l, D.pick l = some n) (g : Graph V)
    (i : TransactionInput V) (hclean : g.clean = true)
    (hin : ∀ x ∈ i.events, g.kind? x.1 = some NodeKind.source) (d : Nat) :
    d ∈ (Propagate D g i).evaluated ∨ (Propagate D g i).graph.events d = [] := by
  rcases Propagate_settled D hpick g i hclean hin with ⟨_, f2, _, _⟩
  by_cases hd : d ∈ (Propagate D g i).evaluated
  · exact Or.inl hd
  · exact Or.inr (f2 d hd)

/-- A node with a single predecessor, linked as its successor, is settled at the end of such
a propagation. -/
theorem settled_single {V : Type} (D : Engine)
    (hpick : ∀ l : List Nat, l ≠ [] → ∃ n ∈ l, D.pick l = some n) (g : Graph V)
    (i : TransactionInput V) (hclean : g.clean = true)
    (hin : ∀ x ∈ i.events, g.kind? x.1 = some NodeKind.source) (m src : Nat)
    (hpre : g.predecessors m = [src]) (hlink : m ∈ g.successors src) :
    (Propagate D g i).graph.settled m := by
  rcases Propagate_settled D hpick g i hclean hin with ⟨f1, f2, _, f4⟩
  have hshape := shape_Propagate D g i
  by_cases hm : m ∈ (Propagate D g i).evaluated
  · exact f1 m hm src hpre
  · apply settled_of_empty _ m (f2 m hm)
    intro d hd
    rw [Graph.predecessors_of_shape hshape, hpre] at hd
    have hds : d = src := by simpa using hd
    subst hds
    by_contra hne
    have hde : d ∈ (Propagate D g i).evaluated := by
      by_contra hc
      exact hne (f2 d hc)
    rcases f4 d hde hne m hlink (by rw [hpre]; simp) with h | h
    · have hready : (Propagate D g i).ready m = true := by
        rw [Turn.ready_iff]
        refine ⟨hm, ?_⟩
        intro p hp
        rw [Graph.predecessors_of_shape hshape, hpre] at hp
        have : p = d := by simpa using hp
        rw [this]
        exact Or.inl hde
      have hmem : m ∈ (Propagate D g i).frontier.filter (Propagate D g i).ready :=
        List.mem_filter.2 ⟨h, hready⟩
      rw [Propagate_complete D hpick g i] at hmem
      cases hmem
    · exact hm h

/-- Over a graph as the builders make it, with empty buffers and every input going to a
Source node, every node is settled at the end of the propagation: a Merge holds the
concatenation of its predecessors' buffers in declaration order, a Filter the events of its
source that satisfy the predicate, a Transform the mapped events of its source. -/
theorem Propagate_settled_wf {V : Type} (D : Engine)
    (hpick : ∀ l : List Nat, l ≠ [] → ∃ n ∈ l, D.pick l = some n) (g : Graph V)
    (i : TransactionInput V) (hwf : g.wf = true) (hclean : g.clean = true)
    (hin : ∀ x ∈ i.events, g.kind? x.1 = some NodeKind.source) (m : Nat) :
    (Propagate D g i).graph.settled m := by
  rcases (Graph.wf_iff g).1 hwf with ⟨w1, _⟩
  have hS : ∀ s ∈ i.seeds, g.kind? s = some NodeKind.source := by
    intro s hs
    rcases List.mem_map.1 ((mem_seeds i s).1 hs) with ⟨x, hx, hxs⟩
    rw [← hxs]
    exact hin x hx
  rcases Propagate_settled D hpick g i hclean hin with ⟨_, f2, _, f4⟩
  have hshape := shape_Propagate D g i
  have hempty := Propagate_frontier_empty D hpick g hwf i
  have key := propagate_induction D
    (fun u : Turn V => u.graph.shape = g.shape ∧
      (∀ m ∈ u.evaluated, ∀ p ∈ g.predecessors m, p ∈ u.evaluated ∨ u.pending p = false) ∧
      (∀ n ∈ u.evaluated, u.graph.settled n) ∧
      (∀ n, n ∉ u.evaluated → n ∉ i.seeds → u.graph.events n = []))
    (by
      intro u n hu hfr hready
      rcases hu with ⟨i1, i3, i5, i6⟩
      rcases (Turn.ready_iff u n).1 hready with ⟨hnot, _⟩
      have hpend : u.pending n = true :=
        Turn.pending_of_waiting u n ((Turn.waiting_iff u n).2 ⟨hfr, hnot⟩)
      refine ⟨by rw [shape_evaluate, i1], unfired_evaluate g u n i1 hwf hfr hready i3, ?_, ?_⟩
      · intro k hk
        show (Tick u.graph n).settled k
        rcases (mem_evaluated_evaluate u n k).1 hk with h | h
        · have hkn : k ≠ n := fun e => hnot (e ▸ h)
          apply settled_Tick_other u.graph n k (i5 k h) hkn
          intro hc
          rw [Graph.predecessors_of_shape i1] at hc
          rcases i3 k h n hc with h2 | h2
          · exact hnot h2
          · rw [hpend] at h2
            cases h2
        · subst h
          by_cases hkS : k ∈ i.seeds
          · unfold Graph.settled
            rw [Graph.kind?_of_shape ((shape_Tick u.graph k).trans i1), hS k hkS]
            trivial
          · apply settled_Tick_self u.graph k (i6 k hnot hkS)
            intro hc
            rw [Graph.predecessors_of_shape i1] at hc
            have := (w1 k k hc).1
            omega
      · intro k hk hkS
        have hk2 : k ∉ u.evaluated ∧ k ≠ n := by
          constructor
          · intro h; exact hk ((mem_evaluated_evaluate u n k).2 (Or.inl h))
          · intro h; exact hk ((mem_evaluated_evaluate u n k).2 (Or.inr h))
        show (Tick u.graph n).events k = []
        rw [Tick_events_ne u.graph n k hk2.2]
        exact i6 k hk2.1 hkS)
    (fuelFor g i.seeds) { graph := i.apply g, frontier := i.seeds, evaluated := [] }
    (by
      refine ⟨shape_apply i g, ?_, ?_, ?_⟩
      · intro k hk
        cases hk
      · intro k hk
        cases hk
      · intro n _ hn
        show (i.apply g).events n = []
        rw [events_apply_of_not_mem i g n (fun h => hn ((mem_seeds i n).2 h))]
        exact (Graph.clean_iff g).1 hclean n)
  have k5 : ∀ n ∈ (Propagate D g i).evaluated, (Propagate D g i).graph.settled n := key.2.2.1
  by_cases hm : m ∈ (Propagate D g i).evaluated
  · exact k5 m hm
  · apply settled_of_empty _ m (f2 m hm)
    intro d hd
    rw [Graph.predecessors_of_shape hshape] at hd
    by_contra hne
    have hde : d ∈ (Propagate D g i).evaluated := by
      by_contra hc
      exact hne (f2 d hc)
    rcases f4 d hde hne m (w1 m d hd).2 hd with h | h
    · rw [hempty] at h
      cases h
    · exact hm h

theorem successors_LinkSuccessor_mono {V : Type} (g : Graph V) (q s p x : Nat)
    (h : x ∈ g.successors p) : x ∈ (LinkSuccessor g q s).successors p := by
  unfold LinkSuccessor Graph.successors at *
  rw [List.getElem?_modify]
  cases hp : g[p]? with
  | none => rw [hp] at h; simp at h
  | some nd =>
    rw [hp] at h
    simp only at h
    by_cases hqp : q = p
    · simp [hqp, h]
    · simp [hqp, h]

theorem successors_LinkSuccessor_self {V : Type} (g : Graph V) (p s : Nat)
    (hp : p < g.length) : s ∈ (LinkSuccessor g p s).successors p := by
  unfold LinkSuccessor Graph.successors
  rw [List.getElem?_modify]
  rw [List.getElem?_eq_getElem hp]
  simp

/-- The node made by `CreateNode` is linked as a successor of each of its predecessors that
is in the graph. -/
theorem CreateNode_successors {V : Type} (g : Graph V) (kind : NodeKind V) (p : Nat)
    (hp : p ∈ kind.predecessors) (hlt : p < g.length) :
    g.length ∈ (CreateNode g kind).2.successors p := by
  unfold CreateNode
  simp only
  have hmono : ∀ (ps : List Nat) (h : Graph V) (x : Nat), x ∈ h.successors p →
      x ∈ (ps.foldl (fun acc q => LinkSuccessor acc q g.length) h).successors p := by
    intro ps
    induction ps with
    | nil => intro h x hx; exact hx
    | cons q qs ih =>
      intro h x hx
      rw [List.foldl_cons]
      exact ih _ x (successors_LinkSuccessor_mono h q g.length p x hx)
  have hgen : ∀ (ps : List Nat) (h : Graph V), p ∈ ps → p < h.length →
      g.length ∈ (ps.foldl (fun acc q => LinkSuccessor acc q g.length) h).successors p := by
    intro ps
    induction ps with
    | nil => intro h hmem; cases hmem
    | cons q qs ih =>
      intro h hmem hlen
      rw [List.foldl_cons]
      by_cases hpq : p = q
      · subst hpq
        exact hmono qs _ _ (successors_LinkSuccessor_self h p g.length hlen)
      · rcases List.mem_cons.1 hmem with h1 | h1
        · exact absurd h1 hpq
        · apply ih _ h1
          rw [length_LinkSuccessor]
          exact hlen
  apply hgen _ _ hp
  simp only [List.length_append, List.length_singleton]
  omega

theorem successors_LinkSuccessor_mem {V : Type} (h : Graph V) (q s p x : Nat)
    (hx : x ∈ (LinkSuccessor h q s).successors p) :
    x ∈ h.successors p ∨ (x = s ∧ q = p) := by
  unfold LinkSuccessor Graph.successors at *
  rw [List.getElem?_modify] at hx
  cases hp : h[p]? with
  | none => rw [hp] at hx; simp at hx
  | some nd =>
    rw [hp] at hx
    by_cases hqp : q = p
    · simp only [hqp, Option.map_eq_map, Option.map_some', if_true, List.mem_append,
        List.mem_singleton] at hx
      rcases hx with h1 | h1
      · exact Or.inl h1
      · exact Or.inr ⟨h1, hqp⟩
    · simp only [hqp, Option.map_eq_map, Option.map_some', if_false] at hx
      exact Or.inl hx

theorem successors_append_new {V : Type} (g : Graph V) (kind : NodeKind V) (p : Nat) :
    Graph.successors (g ++ [({ kind := kind, successors := [], events := [] } : Node V)]) p
      = g.successors p := by
  unfold Graph.successors
  rw [List.getElem?_append]
  by_cases hlt : p < g.length
  · rw [if_pos hlt]
  · rw [if_neg hlt, List.getElem?_eq_none (Nat.le_of_not_lt hlt)]
    cases hk : p - g.length with
    | zero => simp
    | succ m => simp

theorem CreateNode_successors_mem {V : Type} (g : Graph V) (kind : NodeKind V) (p x : Nat)
    (hx : x ∈ (CreateNode g kind).2.successors p) :
    x ∈ g.successors p ∨ (x = g.length ∧ p ∈ kind.predecessors) := by
  unfold CreateNode at hx
  simp only at hx
  have hgen : ∀ (ps : List Nat) (h : Graph V),
      x ∈ (ps.foldl (fun acc q => LinkSuccessor acc q g.length) h).successors p →
      x ∈ h.successors p ∨ (x = g.length ∧ p ∈ ps) := by
    intro ps
    induction ps with
    | nil => intro h hx; exact Or.inl hx
    | cons q qs ih =>
      intro h hx
      rw [List.foldl_cons] at hx
      rcases ih _ hx with h1 | h1
      · rcases successors_LinkSuccessor_mem h q g.length p x h1 with h2 | h2
        · exact Or.inl h2
        · exact Or.inr ⟨h2.1, by rw [h2.2]; exact List.mem_cons_self _ _⟩
      · exact Or.inr ⟨h1.1, List.mem_cons_of_mem _ h1.2⟩
  rcases hgen _ _ hx with h1 | h1
  · rw [successors_append_new] at h1
    exact Or.inl h1
  · exact Or.inr h1

theorem CreateNode_successors_mono {V : Type} (g : Graph V) (kind : NodeKind V) (p x : Nat)
    (hx : x ∈ g.successors p) : x ∈ (CreateNode g kind).2.successors p := by
  unfold CreateNode
  simp only
  have hmono : ∀ (ps : List Nat) (h : Graph V), x ∈ h.successors p →
      x ∈ (ps.foldl (fun acc q => LinkSuccessor acc q g.length) h).successors p := by
    intro ps
    induction ps with
    | nil => intro h hx; exact hx
    | cons q qs ih =>
      intro h hx
      rw [List.foldl_cons]
      exact ih _ (successors_LinkSuccessor_mono h q g.length p x hx)
  apply hmono
  rw [successors_append_new]
  exact hx

theorem CreateNode_predecessors_lt {V : Type} (g : Graph V) (kind : NodeKind V) (n : Nat)
    (hn : n < g.length) : (CreateNode g kind).2.predecessors n = g.predecessors n := by
  have h0 : (g ++ [({ kind := kind, successors := [], events := [] } : Node V)])[n]? =
      some g[n] := by
    rw [List.getElem?_append_left hn, List.getElem?_eq_getElem hn]
  rcases foldl_LinkSuccessor_getElem? kind.predecessors _ g.length n _ h0 with
    ⟨nd2, h2, hk2, _⟩
  have h3 : (CreateNode g kind).2[n]? = some nd2 := h2
  unfold Graph.predecessors
  rw [h3, List.getElem?_eq_getElem hn]
  simp [hk2]

/-- `CreateNode` over predecessors that are in the graph keeps the graph as the builders make
it. -/
theorem CreateNode_wf {V : Type} (g : Graph V) (kind : NodeKind V) (hwf : g.wf = true)
    (hpre : ∀ p ∈ kind.predecessors, p < g.length) : (CreateNode g kind).2.wf = true := by
  rcases (Graph.wf_iff g).1 hwf with ⟨w1, w2⟩
  rw [Graph.wf_iff]
  constructor
  · intro n p hp
    rcases Nat.lt_trichotomy n g.length with hlt | heq | hgt
    · rw [CreateNode_predecessors_lt g kind n hlt] at hp
      exact ⟨(w1 n p hp).1, CreateNode_successors_mono g kind p n (w1 n p hp).2⟩
    · subst heq
      rw [CreateNode_predecessors] at hp
      exact ⟨hpre p hp, CreateNode_successors g kind p hp (hpre p hp)⟩
    · rw [Graph.predecessors_nil_of_le _ n (by rw [CreateNode_length]; omega)] at hp
      cases hp
  · intro n s hs
    rcases CreateNode_successors_mem g kind n s hs with h | h
    · have hns := w2 n s h
      have hslt : s < g.length := by
        by_contra hc
        rw [Graph.predecessors_nil_of_le g s (Nat.le_of_not_lt hc)] at hns
        cases hns
      rw [CreateNode_predecessors_lt g kind s hslt]
      exact hns
    · rw [h.1, CreateNode_predecessors]
      exact h.2

/-- The builders of `EventStream.h`, applied to streams of the graph, keep the graph as the
builders make it, starting from the empty graph. -/
theorem builders_keep_wf {Ty V : Type} (g : Graph V) (hg : g.wf = true) :
    (Graph.wf ([] : Graph V) = true) ∧
    (∀ E : Ty, (MakeEventSource E g).2.wf = true) ∧
    (∀ (src : REvents Ty) (pred : V → Bool), src.ptr < g.length →
      (Filter src pred g).2.wf = true) ∧
    (∀ (src : REvents Ty) (R : Ty) (func : V → V), src.ptr < g.length →
      (Transform src R func g).2.wf = true) ∧
    (∀ (arg1 : REvents Ty) (args : List (REvents Ty)) (r : REvents Ty) (g1 : Graph V),
      Merge arg1 args g = some (r, g1) → (∀ x ∈ arg1 :: args, x.ptr < g.length) →
      g1.wf = true) := by
  refine ⟨rfl, ?_, ?_, ?_, ?_⟩
  · intro E
    apply CreateNode_wf g _ hg
    intro p hp
    cases hp
  · intro src pred hsrc
    apply CreateNode_wf g _ hg
    intro p hp
    have : p = src.ptr := by simpa [NodeKind.predecessors] using hp
    rw [this]
    exact hsrc
  · intro src R func hsrc
    apply CreateNode_wf g _ hg
    intro p hp
    have : p = src.ptr := by simpa [NodeKind.predecessors] using hp
    rw [this]
    exact hsrc
  · intro arg1 args r g1 hm hall
    unfold Merge at hm
    by_cases hlen : args.length > 0
    · rw [if_pos hlen] at hm
      simp only [Option.some.injEq, Prod.mk.injEq] at hm
      rw [← hm.2]
      apply CreateNode_wf g _ hg
      intro p hp
      have hp2 : p ∈ (arg1 :: args).map (fun x => x.ptr) := by
        simpa [NodeKind.predecessors] using hp
      rcases List.mem_map.1 hp2 with ⟨x, hx, hxp⟩
      rw [← hxp]
      exact hall x hx
    · rw [if_neg hlen] at hm
      exact absurd hm (by simp)

/-! The combinators -/

theorem CreateNode_kind? {V : Type} (g : Graph V) (kind : NodeKind V) :
    (CreateNode g kind).2.kind? g.length = some kind := by
  rcases (CreateNode_node g kind).2 with ⟨nd, h, hk, _⟩
  unfold Graph.kind?
  rw [h]
  simp [hk]

/-- The streams built by `Filter`, `Transform` and `Merge` over existing streams are linked as
successors of their predecessors, as the transaction theorems ask. -/
theorem builders_link {Ty V : Type} (g : Graph V) (src : REvents Ty)
    (hsrc : src.ptr < g.length) :
    (∀ pred : V → Bool, (Filter src pred g).1.ptr ∈ (Filter src pred g).2.successors src.ptr) ∧
    (∀ (R : Ty) (func : V → V),
      (Transform src R func g).1.ptr ∈ (Transform src R func g).2.successors src.ptr) ∧
    (∀ (args : List (REvents Ty)) (r : REvents Ty) (g1 : Graph V),
      Merge src args g = some (r, g1) → ∀ x ∈ args, x.ptr < g.length →
      r.ptr ∈ g1.successors src.ptr ∧ r.ptr ∈ g1.successors x.ptr) := by
  refine ⟨?_, ?_, ?_⟩
  · intro pred
    exact CreateNode_successors g (NodeKind.filter src.ptr pred) src.ptr
      (by simp [NodeKind.predecessors]) hsrc
  · intro R func
    exact CreateNode_successors g (NodeKind.transform src.ptr func) src.ptr
      (by simp [NodeKind.predecessors]) hsrc
  · intro args r g1 hm x hx hxlt
    unfold Merge at hm
    by_cases hlen : args.length > 0
    · rw [if_pos hlen] at hm
      simp only [Option.some.injEq, Prod.mk.injEq] at hm
      rcases hm with ⟨hr, hg1⟩
      subst hr hg1
      constructor
      · exact CreateNode_successors g _ src.ptr (by simp [NodeKind.predecessors]) hsrc
      · apply CreateNode_successors g _ x.ptr _ hxlt
        simp only [NodeKind.predecessors, List.mem_cons, List.mem_map]
        exact Or.inr ⟨x, hx, rfl⟩
    · rw [if_neg hlen] at hm
      exact absurd hm (by simp)

/-- The builders of `EventStream.h` leave every buffer empty. -/
theorem builders_keep_clean {Ty V : Type} (g : Graph V) (hg : g.clean = true) :
    (∀ E : Ty, (MakeEventSource E g).2.clean = true) ∧
    (∀ (src : REvents Ty) (pred : V → Bool), (Filter src pred g).2.clean = true) ∧
    (∀ (src : REvents Ty) (R : Ty) (func : V → V), (Transform src R func g).2.clean = true) ∧
    (∀ (arg1 : REvents Ty) (args : List (REvents Ty)) (r : REvents Ty) (g1 : Graph V),
      Merge arg1 args g = some (r, g1) → g1.clean = true) := by
  refine ⟨?_, ?_, ?_, ?_⟩
  · intro E
    exact CreateNode_clean g _ hg
  · intro src pred
    exact CreateNode_clean g _ hg
  · intro src R func
    exact CreateNode_clean g _ hg
  · intro arg1 args r g1 hm
    unfold Merge at hm
    by_cases hlen : args.length > 0
    · rw [if_pos hlen] at hm
      simp only [Option.some.injEq, Prod.mk.injEq] at hm
      rw [← hm.2]
      exact CreateNode_clean g _ hg
    · rw [if_neg hlen] at hm
      exact absurd hm (by simp)

/-- In a transaction as in `Propagate_settled`, a Filter node linked to its source ends up
holding the events of the source's buffer that satisfy the predicate. -/
theorem filter_in_transaction {V : Type} (D : Engine)
    (hpick : ∀ l : List Nat, l ≠ [] → ∃ n ∈ l, D.pick l = some n) (G : Graph V)
    (i : TransactionInput V) (hclean : G.clean = true)
    (hin : ∀ x ∈ i.events, G.kind? x.1 = some NodeKind.source) (m src : Nat) (f : V → Bool)
    (hk : G.kind? m = some (NodeKind.filter src f)) (hlink : m ∈ G.successors src) :
    CurrentEvents D G i m = (CurrentEvents D G i src).filter f := by
  have hpre : G.predecessors m = [src] := by
    rw [Graph.predecessors_eq_kind?, hk]
    rfl
  have h := settled_single D hpick G i hclean hin m src hpre hlink
  unfold Graph.settled at h
  rw [Graph.kind?_of_shape (shape_Propagate D G i), hk] at h
  exact h

/-- In a transaction as in `Propagate_settled`, a Transform node linked to its source ends up
holding the images of the events of the source's buffer. -/
theorem transform_in_transaction {V : Type} (D : Engine)
    (hpick : ∀ l : List Nat, l ≠ [] → ∃ n ∈ l, D.pick l = some n) (G : Graph V)
    (i : TransactionInput V) (hclean : G.clean = true)
    (hin : ∀ x ∈ i.events, G.kind? x.1 = some NodeKind.source) (m src : Nat) (f : V → V)
    (hk : G.kind? m = some (NodeKind.transform src f)) (hlink : m ∈ G.successors src) :
    CurrentEvents D G i m = (CurrentEvents D G i src).map f := by
  have hpre : G.predecessors m = [src] := by
    rw [Graph.predecessors_eq_kind?, hk]
    rfl
  have h := settled_single D hpick G i hclean hin m src hpre hlink
  unfold Graph.settled at h
  rw [Graph.kind?_of_shape (shape_Propagate D G i), hk] at h
  exact h

/-- In a transaction over a graph as the builders make it, with empty buffers and every input
going to a Source node, a Merge node ends up holding the concatenation of the buffers of its
predecessors in declaration order, whichever of them fired. -/
theorem merge_in_transaction {V : Type} (D : Engine)
    (hpick : ∀ l : List Nat, l ≠ [] → ∃ n ∈ l, D.pick l = some n) (G : Graph V)
    (i : TransactionInput V) (hwf : G.wf = true) (hclean : G.clean = true)
    (hin : ∀ x ∈ i.events, G.kind? x.1 = some NodeKind.source) (m : Nat) (deps : List Nat)
    (hk : G.kind? m = some (NodeKind.merge deps)) :
    CurrentEvents D G i m = (deps.map (CurrentEvents D G i)).flatten := by
  have h := Propagate_settled_wf D hpick G i hwf hclean hin m
  unfold Graph.settled at h
  rw [Graph.kind?_of_shape (shape_Propagate D G i), hk] at h
  exact h

/-- Evaluating the node built by `Filter(src, pred)` on an empty buffer leaves in it the
events of `src`'s buffer that satisfy `pred`. -/
theorem Filter_events {Ty V : Type} (src : REvents Ty) (pred : V → Bool) (g : Graph V)
    (t : Graph V) (es : List V)
    (hkind : t.kind? (Filter src pred g).1.ptr =
      (Filter src pred g).2.kind? (Filter src pred g).1.ptr)
    (hempty : t.events (Filter src pred g).1.ptr = [])
    (hes : t.events src.ptr = es) :
    (Tick t (Filter src pred g).1.ptr).events (Filter src pred g).1.ptr = es.filter pred := by
  have hptr : (Filter src pred g).1.ptr = g.length := rfl
  have hg1 : (Filter src pred g).2 = (CreateNode g (NodeKind.filter src.ptr pred)).2 := rfl
  rw [hg1, hptr] at hkind
  rcases node_of_kind_CreateNode g t _ hkind with ⟨nd, hnd, hk⟩
  rw [hptr] at hempty ⊢
  rw [Tick_events_filter t g.length nd _ _ hnd hk, ← events_of_getElem? t g.length nd hnd,
    hempty, hes]
  simp

/-- C3 (merge order stability): `Merge(arg1, args...)` hands the predecessors to the merge
node in declaration order (and `lhs | rhs` is `Merge(lhs, rhs)`). In any transaction over a
graph `G` as the builders make it, with empty buffers, that holds the merge node, every input
going to a Source node, the buffer of the merge node at the end of the propagation is the
concatenation, in declaration order, of the buffers of its predecessors, whichever of them
fired; in particular if the first two predecessors fire with `[a]` and `[b]` and any further
ones stay silent, the buffer is exactly `[a, b]`, never `[b, a]`. Also, in any graph state `t`
that holds the merge node with an empty buffer, evaluating the node makes its buffer the
concatenation of the predecessors' buffers in declaration order. -/
theorem Merge_order_stability {Ty V : Type} (D : Engine) (arg1 : REvents Ty)
    (args : List (REvents Ty)) (g : Graph V) (r : REvents Ty) (g1 : Graph V) (G : Graph V)
    (i : TransactionInput V)
    (hm : Merge arg1 args g = some (r, g1))
    (hpick : ∀ l : List Nat, l ≠ [] → ∃ n ∈ l, D.pick l = some n)
    (hkind : G.kind? r.ptr = g1.kind? r.ptr)
    (hwf : G.wf = true)
    (hclean : G.clean = true)
    (hin : ∀ x ∈ i.events, G.kind? x.1 = some NodeKind.source) :
    g1.predecessors r.ptr = (arg1 :: args).map (fun x => x.ptr) ∧
    (∀ rhs : REvents Ty, operatorOr arg1 rhs g = Merge arg1 [rhs] g) ∧
    CurrentEvents D G i r.ptr =
      ((arg1 :: args).map (fun x => CurrentEvents D G i x.ptr)).flatten ∧
    (∀ p2 rest a b, args = p2 :: rest → CurrentEvents D G i arg1.ptr = [a] →
      CurrentEvents D G i p2.ptr = [b] → (∀ x ∈ rest, CurrentEvents D G i x.ptr = []) →
      CurrentEvents D G i r.ptr = [a, b]) ∧
    (∀ t : Graph V, t.kind? r.ptr = g1.kind? r.ptr → t.events r.ptr = [] →
      (Tick t r.ptr).events r.ptr =
        ((arg1 :: args).map (fun x => t.events x.ptr)).flatten) := by
  unfold Merge at hm
  by_cases hlen : args.length > 0
  · rw [if_pos hlen] at hm
    simp only [Option.some.injEq, Prod.mk.injEq] at hm
    rcases hm with ⟨hr, hg1⟩
    have hptr : r.ptr = g.length := by rw [← hr]; rfl
    have hk1 : g1.kind? r.ptr =
        some (NodeKind.merge (arg1.ptr :: args.map (fun a => a.ptr))) := by
      rw [hptr, ← hg1]
      exact CreateNode_kind? g _
    have hpre : g1.predecessors r.ptr = (arg1 :: args).map (fun x => x.ptr) := by
      rw [hptr, ← hg1]
      exact CreateNode_predecessors g _
    have hbuf : ∀ t : Graph V, t.kind? r.ptr = g1.kind? r.ptr → t.events r.ptr = [] →
        (Tick t r.ptr).events r.ptr =
          ((arg1 :: args).map (fun x => t.events x.ptr)).flatten := by
      intro t ht hempty
      rw [hk1] at ht
      rcases Graph.getElem?_of_kind? t r.ptr _ ht with ⟨nd, hnd, hk⟩
      rw [Tick_events_merge t r.ptr nd _ hnd hk, ← events_of_getElem? t r.ptr nd hnd, hempty]
      simp [List.map_map, Function.comp_def]
    have hend : CurrentEvents D G i r.ptr =
        ((arg1 :: args).map (fun x => CurrentEvents D G i x.ptr)).flatten := by
      rw [merge_in_transaction D hpick G i hwf hclean hin r.ptr _ (hkind.trans hk1)]
      simp [List.map_map, Function.comp_def]
    refine ⟨hpre, fun _ => rfl, hend, ?_, hbuf⟩
    intro p2 rest a b hargs ha hb hrest
    have hnil : (rest.map (fun x => CurrentEvents D G i x.ptr)).flatten = [] := by
      rw [List.flatten_eq_nil_iff]
      intro l hl
      rcases List.mem_map.1 hl with ⟨x, hx, hxl⟩
      rw [← hxl]
      exact hrest x hx
    rw [hend, hargs]
    simp only [List.map_cons, List.flatten_cons, ha, hb, hnil]
    rfl
  · rw [if_neg hlen] at hm
    exact absurd hm (by simp)

/-- Witness for C3 (scenario of §8 and beyond): over `M = Merge(S1, S2)` the transaction with
the inputs `1` for `S1` and `2` for `S2` ends with `[1, 2]` in `M`, and the transaction in
which only `S1` fires ends with `[1]`; over `Merge(S1, S2, S3)` the transaction with `2` for
`S2` emitted before `1` for `S1`, `S3` silent, ends with `[1, 2]`. -/
theorem Merge_order_stability_witness :
    exMergeGraph.predecessors 2 = [0, 1] ∧
    CurrentEvents Engine.fifo exMergeGraph { events := [(0, 1), (1, 2)] } 2 = [1, 2] ∧
    CurrentEvents Engine.fifo exMergeGraph { events := [(0, 1)] } 2 = [1] ∧
    CurrentEvents Engine.fifo exMerge3 { events := [(1, 2), (0, 1)] } 3 = [1, 2] :=
  have h1 := Merge_order_stability Engine.fifo exS1.1.toREvents [exS2.1.toREvents] exS2.2
    { ptr := 2, E := ExTy.int } exMergeGraph exMergeGraph { events := [(0, 1), (1, 2)] } rfl
    Engine.fifo_picks rfl (by decide) (by decide)
    (by
      intro x hx
      simp only [List.mem_cons, List.mem_singleton, List.not_mem_nil, or_false] at hx
      rcases hx with h | h <;> subst h <;> rfl)
  have h2 := Merge_order_stability Engine.fifo exS1.1.toREvents [exS2.1.toREvents] exS2.2
    { ptr := 2, E := ExTy.int } exMergeGraph exMergeGraph { events := [(0, 1)] } rfl
    Engine.fifo_picks rfl (by decide) (by decide)
    (by
      intro x hx
      simp only [List.mem_singleton] at hx
      subst hx
      rfl)
  have h3 := Merge_order_stability Engine.fifo exS1.1.toREvents
    [exS2.1.toREvents, exS3.1.toREvents] exS3.2
    { ptr := 3, E := ExTy.int } exMerge3 exMerge3 { events := [(1, 2), (0, 1)] } rfl
    Engine.fifo_picks rfl (by decide) (by decide)
    (by
      intro x hx
      simp only [List.mem_cons, List.mem_singleton, List.not_mem_nil, or_false] at hx
      rcases hx with h | h <;> subst h <;> rfl)
  ⟨h1.1, h1.2.2.2.1 exS2.1.toREvents [] 1 2 rfl (by decide) (by decide) (by simp),
   h2.2.2.1.trans (by decide),
   h3.2.2.2.1 exS2.1.toREvents [exS3.1.toREvents] 1 2 rfl (by decide) (by decide)
     (by decide)⟩

/-- C4 (filter purity): in a transaction over a graph `G` with empty buffers that holds the
node built by `Filter(src, pred)` linked to `src`, with every input going to a Source node,
the buffer of the filter node at the end of the propagation is exactly the events of the
buffer of `src` that satisfy `pred`, in the same order, none duplicated or dropped
(`List.filter pred es`, a sub-sequence of `es`); and in any graph state `t` that holds the
node with an empty buffer, evaluating it on the buffer `es` of `src` gives
`List.filter pred es`. -/
theorem Filter_purity {Ty V : Type} (D : Engine) (src : REvents Ty) (pred : V → Bool)
    (g G : Graph V) (i : TransactionInput V)
    (hpick : ∀ l : List Nat, l ≠ [] → ∃ n ∈ l, D.pick l = some n)
    (hkind : G.kind? (Filter src pred g).1.ptr =
      (Filter src pred g).2.kind? (Filter src pred g).1.ptr)
    (hlink : (Filter src pred g).1.ptr ∈ G.successors src.ptr)
    (hclean : G.clean = true)
    (hin : ∀ x ∈ i.events, G.kind? x.1 = some NodeKind.source) :
    CurrentEvents D G i (Filter src pred g).1.ptr =
      (CurrentEvents D G i src.ptr).filter pred ∧
    ((CurrentEvents D G i src.ptr).filter pred).Sublist (CurrentEvents D G i src.ptr) ∧
    (∀ (t : Graph V) (es : List V),
      t.kind? (Filter src pred g).1.ptr =
        (Filter src pred g).2.kind? (Filter src pred g).1.ptr →
      t.events (Filter src pred g).1.ptr = [] → t.events src.ptr = es →
      (Tick t (Filter src pred g).1.ptr).events (Filter src pred g).1.ptr
        = es.filter pred) := by
  have hk1 : (Filter src pred g).2.kind? (Filter src pred g).1.ptr =
      some (NodeKind.filter src.ptr pred) := CreateNode_kind? g _
  refine ⟨?_, List.filter_sublist _, ?_⟩
  · exact filter_in_transaction D hpick G i hclean hin _ src.ptr pred (hkind.trans hk1) hlink
  · intro t es ht hempty hes
    exact Filter_events src pred g t es ht hempty hes

/-- Witness for C4: with `pred = (x > 0)` over the source `S`, inside the graph of
`T = Transform(Filter(S, x > 0), x * 2)`, the transaction with the input `3` ends with `[3]`
in the filter's buffer and the transaction with the input `-1` with `[]`. -/
theorem Filter_purity_witness :
    CurrentEvents Engine.fifo exT.2 { events := [(0, 3)] } 1 = [3] ∧
    CurrentEvents Engine.fifo exT.2 { events := [(0, -1)] } 1 = [] :=
  ⟨(Filter_purity Engine.fifo exS.1.toREvents (fun x => decide (x > 0)) exS.2 exT.2
      { events := [(0, 3)] } Engine.fifo_picks rfl (by decide) (by decide)
      (by
        intro x hx
        simp only [List.mem_singleton] at hx
        subst hx
        rfl)).1.trans (by decide),
   (Filter_purity Engine.fifo exS.1.toREvents (fun x => decide (x > 0)) exS.2 exT.2
      { events := [(0, -1)] } Engine.fifo_picks rfl (by decide) (by decide)
      (by
        intro x hx
        simp only [List.mem_singleton] at hx
        subst hx
        rfl)).1.trans (by decide)⟩

/-- C5 (transform totality): the evaluation routine of a Transform node maps a buffer of
`TIn` events to the buffer `[f e1, f e2, ...]` of `TOut` events, of the same length, where
`TOut`, the return type of `f`, may differ from `TIn`, and the handle returned by
`Transform(src, func)` carries the return type of `func` as its event type. In a transaction
over a graph `G` with empty buffers that holds the node built by `Transform(src, func)`
linked to `src`, with every input going to a Source node, the buffer of the transform node
at the end of the propagation is `List.map func es` for the buffer `es` of `src`, of the same
length; and in any graph state `t` that holds the node with an empty buffer, evaluating it on
the buffer `es` of `src` gives `List.map func es`. -/
theorem Transform_totality {Ty V TIn TOut : Type} (D : Engine) (f : TIn → TOut)
    (ins : List TIn) (src : REvents Ty) (R : Ty) (func : V → V) (g G : Graph V)
    (i : TransactionInput V)
    (hpick : ∀ l : List Nat, l ≠ [] → ∃ n ∈ l, D.pick l = some n)
    (hkind : G.kind? (Transform src R func g).1.ptr =
      (Transform src R func g).2.kind? (Transform src R func g).1.ptr)
    (hlink : (Transform src R func g).1.ptr ∈ G.successors src.ptr)
    (hclean : G.clean = true)
    (hin : ∀ x ∈ i.events, G.kind? x.1 = some NodeKind.source) :
    EventTransformNode.Tick f ins [] = ins.map f ∧
    (EventTransformNode.Tick f ins []).length = ins.length ∧
    (Transform src R func g).1.E = R ∧
    CurrentEvents D G i (Transform src R func g).1.ptr =
      (CurrentEvents D G i src.ptr).map func ∧
    (CurrentEvents D G i (Transform src R func g).1.ptr).length =
      (CurrentEvents D G i src.ptr).length ∧
    (∀ (t : Graph V) (es : List V),
      t.kind? (Transform src R func g).1.ptr =
        (Transform src R func g).2.kind? (Transform src R func g).1.ptr →
      t.events (Transform src R func g).1.ptr = [] → t.events src.ptr = es →
      (Tick t (Transform src R func g).1.ptr).events (Transform src R func g).1.ptr
        = es.map func) := by
  have hptr : (Transform src R func g).1.ptr = g.length := rfl
  have hk1 : (Transform src R func g).2.kind? (Transform src R func g).1.ptr =
      some (NodeKind.transform src.ptr func) := CreateNode_kind? g _
  have hend : CurrentEvents D G i (Transform src R func g).1.ptr =
      (CurrentEvents D G i src.ptr).map func :=
    transform_in_transaction D hpick G i hclean hin _ src.ptr func (hkind.trans hk1) hlink
  refine ⟨?_, ?_, rfl, hend, ?_, ?_⟩
  · rw [transform_Tick_eq]; simp
  · rw [transform_Tick_eq]; simp
  · rw [hend]; simp
  · intro t es ht hempty hes
    rw [hk1] at ht
    rcases Graph.getElem?_of_kind? t _ _ ht with ⟨nd, hnd, hk⟩
    rw [Tick_events_transform t _ nd _ _ hnd hk, ← events_of_getElem? t _ nd hnd, hempty, hes]
    simp

/-- Witness for C5: with `f = (x * 2)` after `Filter(S, x > 0)`, the transaction with the
input `3` ends with `[6]` in the buffer of `T` and the transaction with the input `-1` with
`[]`; a routine from `Int` to `Bool` events maps `[3, -1]` to `[true, false]`. -/
theorem Transform_totality_witness :
    EventTransformNode.Tick (fun x : Int => decide (x > 0)) [3, -1] [] = [true, false] ∧
    CurrentEvents Engine.fifo exT.2 { events := [(0, 3)] } 2 = [6] ∧
    CurrentEvents Engine.fifo exT.2 { events := [(0, -1)] } 2 = [] :=
  have h1 := Transform_totality Engine.fifo (fun x : Int => decide (x > 0)) [3, -1] exF.1
    ExTy.int (fun x : Int => x * 2) exF.2 exT.2 { events := [(0, 3)] } Engine.fifo_picks rfl
    (by decide) (by decide)
    (by
      intro x hx
      simp only [List.mem_singleton] at hx
      subst hx
      rfl)
  have h2 := Transform_totality Engine.fifo (fun x : Int => decide (x > 0)) [3, -1] exF.1
    ExTy.int (fun x : Int => x * 2) exF.2 exT.2 { events := [(0, -1)] } Engine.fifo_picks rfl
    (by decide) (by decide)
    (by
      intro x hx
      simp only [List.mem_singleton] at hx
      subst hx
      rfl)
  ⟨h1.1, h1.2.2.2.1.trans (by decide), h2.2.2.2.1.trans (by decide)⟩

/-- The scenario of §8 end to end: over `T = Transform(Filter(S, x > 0), x * 2)`, a
transaction with the input `-1` leaves the buffer of `T` empty and a transaction with the
input `3` makes it `[6]`; after either commit every buffer is empty again. -/
theorem scenario_filter_transform :
    CurrentEvents Engine.fifo exT.2 { events := [(exS.1.ptr, -1)] } exT.1.ptr = [] ∧
    CurrentEvents Engine.fifo exT.2 { events := [(exS.1.ptr, 3)] } exT.1.ptr = [6] ∧
    (CommitGraph Engine.fifo exT.2 { events := [(exS.1.ptr, 3)] }).clean = true := by
  decide

/-- The scenario of §8 end to end: over `M = Merge(S1, S2)`, one transaction holding the
inputs `1` for `S1` and `2` for `S2` makes the buffer of `M` equal to `[1, 2]`, whichever
input was emitted first, with each node evaluated once. -/
theorem scenario_merge :
    CurrentEvents Engine.fifo exMergeGraph { events := [(0, 1), (1, 2)] } 2 = [1, 2] ∧
    CurrentEvents Engine.fifo exMergeGraph { events := [(1, 2), (0, 1)] } 2 = [1, 2] ∧
    (Propagate Engine.fifo exMergeGraph { events := [(0, 1), (1, 2)] }).evaluated
      = [0, 1, 2] := by
  decide

/-- C10 (comparison operators): `lhs op rhs` is `Filter(lhs, e => e op rhs)` with the stream
event on the left. In a transaction over a graph `G` with empty buffers that holds the node
it built linked to `lhs`, with every input going to a Source node, the buffer of that node at
the end of the propagation is the events `e` of the buffer of `lhs` with `e op rhs`, in
order; and in any graph state `t` that holds the node with an empty buffer, evaluating it on
the buffer `es` of `lhs` gives the events `e` of `es` with `e op rhs`. The operators
`==`/`!=`, `<`/`>=`, `>`/`<=` split any buffer `es` in two: each pair of predicates is
complementary and the two filtered buffers together are a rearrangement of `es`. -/
theorem comparison_is_filter {Ty V : Type} [LinearOrder V] (D : Engine) (op : CompOp)
    (lhs : REvents Ty) (rhs : V) (g G : Graph V) (i : TransactionInput V)
    (hpick : ∀ l : List Nat, l ≠ [] → ∃ n ∈ l, D.pick l = some n)
    (hkind : G.kind? (operatorComp op lhs rhs g).1.ptr =
      (operatorComp op lhs rhs g).2.kind? (operatorComp op lhs rhs g).1.ptr)
    (hlink : (operatorComp op lhs rhs g).1.ptr ∈ G.successors lhs.ptr)
    (hclean : G.clean = true)
    (hin : ∀ x ∈ i.events, G.kind? x.1 = some NodeKind.source) :
    operatorComp op lhs rhs g = Filter lhs (op.lambda rhs) g ∧
    (∀ e : V, (CompOp.eq.lambda rhs e = true ↔ e = rhs) ∧
      (CompOp.ne.lambda rhs e = true ↔ e ≠ rhs) ∧
      (CompOp.lt.lambda rhs e = true ↔ e < rhs) ∧
      (CompOp.le.lambda rhs e = true ↔ e ≤ rhs) ∧
      (CompOp.gt.lambda rhs e = true ↔ e > rhs) ∧
      (CompOp.ge.lambda rhs e = true ↔ e ≥ rhs)) ∧
    CurrentEvents D G i (operatorComp op lhs rhs g).1.ptr =
      (CurrentEvents D G i lhs.ptr).filter (op.lambda rhs) ∧
    (∀ (t : Graph V) (es : List V),
      t.kind? (operatorComp op lhs rhs g).1.ptr =
        (operatorComp op lhs rhs g).2.kind? (operatorComp op lhs rhs g).1.ptr →
      t.events (operatorComp op lhs rhs g).1.ptr = [] → t.events lhs.ptr = es →
      (Tick t (operatorComp op lhs rhs g).1.ptr).events (operatorComp op lhs rhs g).1.ptr
        = es.filter (op.lambda rhs)) ∧
    (∀ e : V, CompOp.ne.lambda rhs e = !(CompOp.eq.lambda rhs e)) ∧
    (∀ e : V, CompOp.ge.lambda rhs e = !(CompOp.lt.lambda rhs e)) ∧
    (∀ e : V, CompOp.le.lambda rhs e = !(CompOp.gt.lambda rhs e)) ∧
    (∀ es : List V,
      (es.filter (CompOp.eq.lambda rhs) ++ es.filter (CompOp.ne.lambda rhs)).Perm es ∧
      (es.filter (CompOp.lt.lambda rhs) ++ es.filter (CompOp.ge.lambda rhs)).Perm es ∧
      (es.filter (CompOp.gt.lambda rhs) ++ es.filter (CompOp.le.lambda rhs)).Perm es) := by
  have hne : ∀ e : V, CompOp.ne.lambda rhs e = !(CompOp.eq.lambda rhs e) := by
    intro e; simp [CompOp.lambda]
  have hge : ∀ e : V, CompOp.ge.lambda rhs e = !(CompOp.lt.lambda rhs e) := by
    intro e
    by_cases h : e < rhs
    · simp [CompOp.lambda, h, not_le.2 h]
    · simp [CompOp.lambda, h, not_lt.1 h]
  have hle : ∀ e : V, CompOp.le.lambda rhs e = !(CompOp.gt.lambda rhs e) := by
    intro e
    by_cases h : rhs < e
    · simp [CompOp.lambda, h, not_le.2 h]
    · simp [CompOp.lambda, h, not_lt.1 h]
  have hperm : ∀ (es : List V) (p q : V → Bool), (∀ e, q e = !(p e)) →
      (es.filter p ++ es.filter q).Perm es := by
    intro es p q hpq
    have : q = fun x => !(p x) := funext hpq
    rw [this]
    exact List.filter_append_perm p es
  have hk1 : (operatorComp op lhs rhs g).2.kind? (operatorComp op lhs rhs g).1.ptr =
      some (NodeKind.filter lhs.ptr (op.lambda rhs)) := CreateNode_kind? g _
  refine ⟨rfl, ?_, ?_, ?_, hne, hge, hle, ?_⟩
  · intro e
    simp [CompOp.lambda]
  · exact filter_in_transaction D hpick G i hclean hin _ lhs.ptr _ (hkind.trans hk1) hlink
  · intro t es ht hempty hes
    exact Filter_events lhs (op.lambda rhs) g t es ht hempty hes
  · intro es
    exact ⟨hperm es _ _ hne, hperm es _ _ hge, hperm es _ _ hle⟩

/-- Witness for C10: over the source `S` and the stream `S == 2`, the transaction with the
inputs `1, 2, 3, 2` ends with `[2, 2]` in the buffer of `S == 2`, and `!=` keeps the other
events `[1, 3]`. -/
theorem comparison_is_filter_witness :
    CurrentEvents Engine.fifo exEq.2 { events := [(0, 1), (0, 2), (0, 3), (0, 2)] } 1
      = [2, 2] ∧
    List.filter (CompOp.ne.lambda (2 : Int)) [1, 2, 3, 2] = [1, 3] :=
  have h := comparison_is_filter Engine.fifo CompOp.eq exS.1.toREvents (2 : Int) exS.2 exEq.2
    { events := [(0, 1), (0, 2), (0, 3), (0, 2)] } Engine.fifo_picks rfl (by decide)
    (by decide)
    (by
      intro x hx
      simp only [List.mem_cons, List.mem_singleton, List.not_mem_nil, or_false] at hx
      rcases hx with h | h | h | h <;> subst h <;> rfl)
  ⟨h.2.2.1.trans (by decide), by decide⟩
/-! `Emit` and the transaction contexts -/

theorem emitAll_scoped {Ty V : Type} (D : Engine) (ins : List (REventSource Ty × V))
    (d : Domain V) (sc : TransactionInput V) (hc : d.continuation = none)
    (hs : d.scopedInput = some sc) :
    emitAll D ins d = { d with scopedInput := some { events := sc.events ++ inputsOf ins } } := by
  unfold emitAll inputsOf
  induction ins generalizing d sc with
  | nil =>
    rcases d with ⟨g, c, s, t, cm⟩
    simp only at hs
    simp [hs]
  | cons x xs ih =>
    rw [List.foldl_cons]
    have h1 : x.1.Emit D x.2 d =
        { d with scopedInput := some { events := sc.events ++ [(x.1.ptr, x.2)] } } := by
      rcases d with ⟨g, c, s, t, cm⟩
      simp only at hc hs
      subst hc hs
      rfl
    rw [h1, ih { d with scopedInput := some { events := sc.events ++ [(x.1.ptr, x.2)] } }
      { events := sc.events ++ [(x.1.ptr, x.2)] } hc rfl]
    simp

/-- C1: when a continuation or a scoped transaction input is active, `Emit(s, e)` appends
`(s, e)` to the active context and returns with no transaction constructed, no commit
performed and the graph untouched; hence a batch of emissions inside an open scope performs no
commit, the scope holds the batch in emission order, and committing the scope performs exactly
one commit (one propagation pass) over the whole batch and closes the scope. -/
theorem Emit_in_active_context {Ty V : Type} (D : Engine) (s : REventSource Ty) (e : V)
    (ins : List (REventSource Ty × V)) (d : Domain V)
    (h : d.continuation.isSome = true ∨ d.scopedInput.isSome = true) :
    (s.Emit D e d).transactions = d.transactions ∧
    (s.Emit D e d).commits = d.commits ∧
    (s.Emit D e d).graph = d.graph ∧
    (∀ c, d.continuation = some c →
      (s.Emit D e d).continuation = some { events := c.events ++ [(s.ptr, e)] } ∧
      (s.Emit D e d).scopedInput = d.scopedInput) ∧
    (d.continuation = none → ∀ sc, d.scopedInput = some sc →
      (s.Emit D e d).scopedInput = some { events := sc.events ++ [(s.ptr, e)] } ∧
      (s.Emit D e d).continuation = none) ∧
    (d.continuation = none → ∀ sc, d.scopedInput = some sc →
      (emitAll D ins d).commits = d.commits ∧
      (emitAll D ins d).transactions = d.transactions ∧
      (emitAll D ins d).graph = d.graph ∧
      (emitAll D ins d).scopedInput = some { events := sc.events ++ inputsOf ins } ∧
      (CommitScope D (emitAll D ins d)).commits = d.commits ++ [sc.events ++ inputsOf ins] ∧
      (CommitScope D (emitAll D ins d)).transactions = d.transactions ∧
      (CommitScope D (emitAll D ins d)).scopedInput = none) := by
  have hbatch : d.continuation = none → ∀ sc, d.scopedInput = some sc →
      (emitAll D ins d).commits = d.commits ∧
      (emitAll D ins d).transactions = d.transactions ∧
      (emitAll D ins d).graph = d.graph ∧
      (emitAll D ins d).scopedInput = some { events := sc.events ++ inputsOf ins } ∧
      (CommitScope D (emitAll D ins d)).commits = d.commits ++ [sc.events ++ inputsOf ins] ∧
      (CommitScope D (emitAll D ins d)).transactions = d.transactions ∧
      (CommitScope D (emitAll D ins d)).scopedInput = none := by
    intro hc sc hs
    rw [emitAll_scoped D ins d sc hc hs]
    exact ⟨rfl, rfl, rfl, rfl, rfl, rfl, rfl⟩
  rcases d with ⟨g, c, sc, t, cm⟩
  cases c with
  | some c =>
    refine ⟨rfl, rfl, rfl, ?_, ?_, ?_⟩
    · intro c2 hc2
      cases hc2
      exact ⟨rfl, rfl⟩
    · intro hn
      cases hn
    · intro hn
      cases hn
  | none =>
    cases sc with
    | none => simp at h
    | some sc =>
      refine ⟨rfl, rfl, rfl, ?_, ?_, hbatch⟩
      · intro c2 hc2
        cases hc2
      · intro _ sc2 hsc2
        cases hsc2
        exact ⟨rfl, rfl⟩

/-- Witness for C1 (scenario of §8): inside an open scope over `M = Merge(S1, S2)`, the
emissions `Emit(S1, 1)` and `Emit(S2, 2)` perform no commit, and committing the scope
performs exactly one, over `[(S1, 1), (S2, 2)]`. -/
theorem Emit_in_active_context_witness :
    (emitAll Engine.fifo [(exS1.1, 1), (exS2.1, 2)] exBatching).commits = [] ∧
    (CommitScope Engine.fifo (emitAll Engine.fifo [(exS1.1, 1), (exS2.1, 2)] exBatching)).commits
      = [[(0, 1), (1, 2)]] :=
  have h := (Emit_in_active_context Engine.fifo exS1.1 (1 : Int) [(exS1.1, 1), (exS2.1, 2)]
    exBatching (Or.inr rfl)).2.2.2.2.2 rfl { events := [] } rfl
  ⟨h.1, h.2.2.2.2.1⟩

/-- C2: when neither a continuation nor a scoped transaction input is active, `Emit(s, e)`
constructs one transaction, commits exactly once, the committed input being exactly
`[(s, e)]`, runs that commit on the graph, and leaves no context active. -/
theorem Emit_ad_hoc {Ty V : Type} (D : Engine) (s : REventSource Ty) (e : V) (d : Domain V)
    (hc : d.continuation = none) (hs : d.scopedInput = none) :
    (s.Emit D e d).transactions = d.transactions + 1 ∧
    (s.Emit D e d).commits = d.commits ++ [[(s.ptr, e)]] ∧
    (s.Emit D e d).graph = CommitGraph D d.graph { events := [(s.ptr, e)] } ∧
    (s.Emit D e d).continuation = none ∧
    (s.Emit D e d).scopedInput = none := by
  rcases d with ⟨g, c, sc, t, cm⟩
  simp only at hc hs
  subst hc hs
  exact ⟨rfl, rfl, rfl, rfl, rfl⟩

/-- Witness for C2: on the idle domain over `T = Transform(Filter(S, x > 0), x * 2)`,
`Emit(S, 3)` constructs one transaction and commits once, with the input `[(S, 3)]`. -/
theorem Emit_ad_hoc_witness :
    (exS.1.Emit Engine.fifo (3 : Int) (Domain.idle exT.2)).transactions = 1 ∧
    (exS.1.Emit Engine.fifo (3 : Int) (Domain.idle exT.2)).commits = [[(0, 3)]] :=
  have h := Emit_ad_hoc Engine.fifo exS.1 (3 : Int) (Domain.idle exT.2) rfl rfl
  ⟨h.1, h.2.1⟩

/-- C9: `Emit(s, e)` hands the input to exactly one sink. With an active continuation the
input goes to the continuation through `AddEventInput_Safe`, whether or not a scope is open,
and nothing else changes; with no continuation and an open scope it goes to the scope through
`AddEventInput`; with neither it goes to a fresh transaction that is committed. In every case
the number of inputs taken by the domain grows by exactly one. -/
theorem Emit_routes_to_one_sink {Ty V : Type} (D : Engine) (s : REventSource Ty) (e : V)
    (d : Domain V) :
    (∀ c, d.continuation = some c →
      s.Emit D e d = { d with continuation := some (c.AddEventInput_Safe s.ptr e) } ∧
      (c.AddEventInput_Safe s.ptr e).events = c.events ++ [(s.ptr, e)]) ∧
    (d.continuation = none → ∀ sc, d.scopedInput = some sc →
      s.Emit D e d = { d with scopedInput := some (sc.AddEventInput s.ptr e) } ∧
      (sc.AddEventInput s.ptr e).events = sc.events ++ [(s.ptr, e)]) ∧
    (d.continuation = none → d.scopedInput = none →
      s.Emit D e d =
        { d with graph := CommitGraph D d.graph { events := [(s.ptr, e)] },
                 transactions := d.transactions + 1,
                 commits := d.commits ++ [[(s.ptr, e)]] }) ∧
    (s.Emit D e d).delivered = d.delivered + 1 := by
  rcases d with ⟨g, c, sc, t, cm⟩
  refine ⟨?_, ?_, ?_, ?_⟩
  · intro c2 hc2
    simp only at hc2
    subst hc2
    exact ⟨rfl, rfl⟩
  · intro hc sc2 hsc2
    simp only at hc hsc2
    subst hc hsc2
    exact ⟨rfl, rfl⟩
  · intro hc hs
    simp only at hc hs
    subst hc hs
    rfl
  · cases c with
    | some c =>
      simp only [REventSource.Emit, Domain.delivered, TransactionInput.AddEventInput_Safe,
        List.length_append, List.length_singleton]
      omega
    | none =>
      cases sc with
      | some sc =>
        simp only [REventSource.Emit, Domain.delivered, TransactionInput.AddEventInput,
          List.length_append, List.length_singleton]
        omega
      | none =>
        simp only [REventSource.Emit, Domain.delivered, Transaction.create,
          Transaction.Commit, TransactionInput.AddEventInput, List.map_append,
          List.sum_append, List.map_cons, List.map_nil, List.sum_cons, List.sum_nil,
          List.length_singleton, List.nil_append]
        omega

/-- Witness for C9: with both a continuation and a scope active, `Emit(S1, 5)` appends to the
continuation and leaves the scope as it was; with only the scope active it appends to the
scope. -/
theorem Emit_routes_to_one_sink_witness :
    ((exS1.1.Emit Engine.fifo (5 : Int) exContinuing).continuation.map (fun c => c.events)
      = some [(1, 7), (0, 5)]) ∧
    ((exS1.1.Emit Engine.fifo (5 : Int) exContinuing).scopedInput.map (fun c => c.events)
      = some []) ∧
    ((exS1.1.Emit Engine.fifo (5 : Int) exBatching).scopedInput.map (fun c => c.events)
      = some [(0, 5)]) ∧
    (exS1.1.Emit Engine.fifo (5 : Int) exContinuing).delivered = 2 :=
  have h1 := Emit_routes_to_one_sink Engine.fifo exS1.1 (5 : Int) exContinuing
  have h2 := Emit_routes_to_one_sink Engine.fifo exS1.1 (5 : Int) exBatching
  ⟨by rw [(h1.1 _ rfl).1]; rfl, by rw [(h1.1 _ rfl).1]; rfl,
   by rw [(h2.2.1 rfl _ rfl).1]; rfl, h1.2.2.2⟩


/-! Construction of merge nodes -/

/-- C6 (counterexample): `Merge` applied to an `int` stream and a `double` stream, whose
event types differ, is accepted: it returns a stream of event type `int` and a graph with the
new node. So success does not require one common event type. -/
theorem Merge_accepts_differing_event_types :
    exD.1.E ≠ exS1.1.E ∧
    (Merge exS1.1.toREvents [exD.1.toREvents] exD.2).isSome = true ∧
    (Merge exS1.1.toREvents [exD.1.toREvents] exD.2).map (fun x => x.1.E) = some ExTy.int ∧
    (Merge exS1.1.toREvents [exD.1.toREvents] exD.2).map (fun x => x.2.length) = some 3 ∧
    ¬ ((Merge exS1.1.toREvents [exD.1.toREvents] exD.2).isSome = true →
        ∀ x ∈ [exD.1.toREvents], x.E = exS1.1.E) := by
  decide

/-- C6 (amended): `Merge(arg1, args...)` succeeds exactly when it is given at least two
predecessors; with fewer it is rejected and no graph with a new node is produced; when it
succeeds, whatever the event types of the arguments, the result carries the event type of
the first argument and its node, added at the next free position, has the arguments as
predecessors. -/
theorem Merge_requires_two_arguments {Ty V : Type} (arg1 : REvents Ty)
    (args : List (REvents Ty)) (g : Graph V) :
    ((Merge arg1 args g).isSome = true ↔ 2 ≤ (arg1 :: args).length) ∧
    ((arg1 :: args).length < 2 → Merge arg1 args g = none) ∧
    (∀ r g1, Merge arg1 args g = some (r, g1) →
      r.E = arg1.E ∧ r.ptr = g.length ∧ g1.length = g.length + 1 ∧
      g1.predecessors r.ptr = (arg1 :: args).map (fun x => x.ptr)) := by
  unfold Merge
  by_cases hlen : args.length > 0
  · rw [if_pos hlen]
    refine ⟨?_, ?_, ?_⟩
    · simp only [Option.isSome_some, List.length_cons, true_iff]
      omega
    · intro h
      simp only [List.length_cons] at h
      omega
    · intro r g1 h
      simp only [Option.some.injEq, Prod.mk.injEq] at h
      rcases h with ⟨hr, hg1⟩
      subst hr hg1
      exact ⟨rfl, rfl, CreateNode_length g _, CreateNode_predecessors g _⟩
  · rw [if_neg hlen]
    refine ⟨?_, ?_, ?_⟩
    · simp only [List.length_cons]
      constructor
      · intro h; simp at h
      · intro h; omega
    · intro _; rfl
    · intro r g1 h
      simp at h

/-- Witness for C6 (amended): `Merge(S1)` alone is rejected; `Merge(S1, S2)` is accepted with
event type `int`, and so is `Merge(S1, D)` for the `double` source `D`. -/
theorem Merge_requires_two_arguments_witness :
    Merge exS1.1.toREvents [] exS2.2 = none ∧
    (exM.map (fun x => x.1.E) = some ExTy.int) ∧
    ((Merge exS1.1.toREvents [exD.1.toREvents] exD.2).isSome = true) :=
  ⟨(Merge_requires_two_arguments exS1.1.toREvents [] exS2.2).2.1 (by decide),
   by decide,
   (Merge_requires_two_arguments exS1.1.toREvents [exD.1.toREvents] exD.2).1.2 (by decide)⟩

/-! Glitch freedom -/

/-- C7 (glitch freedom): in the propagation of any transaction over any graph of Source,
Merge, Filter and Transform nodes as the builders make it, with any tie-break rule, no node is
evaluated twice, and every predecessor of an evaluated node that is evaluated in the
transaction at all is evaluated before that node: the evaluation order is a topological order
of the predecessor relation. A predecessor that does not fire is not waited for, and when the
tie-break rule always picks one of the ready nodes the propagation ends with an empty
frontier, every notified node having been evaluated. -/
theorem glitch_freedom {V : Type} (D : Engine) (g : Graph V) (i : TransactionInput V)
    (hwf : g.wf = true) :
    (Propagate D g i).evaluated.Nodup ∧
    (∀ l1 n l2, (Propagate D g i).evaluated = l1 ++ n :: l2 →
      ∀ p ∈ g.predecessors n, p ∈ (Propagate D g i).evaluated → p ∈ l1) ∧
    ((∀ l : List Nat, l ≠ [] → ∃ n ∈ l, D.pick l = some n) →
      (Propagate D g i).frontier = []) := by
  have h := glitch_invariant D g hwf (fuelFor g i.seeds)
    { graph := i.apply g, frontier := i.seeds, evaluated := [] } (shape_apply i g) rfl
  exact ⟨h.1, h.2.2.1, fun hpick => Propagate_frontier_empty D hpick g hwf i⟩

/-- Witness for C7: over `S1`, `S2`, `U = Transform(S1, x * 2)` and `N = Merge(U, S2)`, the
transaction with the input `5` for `S2` emitted before `1` for `S1` evaluates `S2`, `S1`, `U`,
`N` in this order: `N`, notified first by `S2`, waits for its other predecessor `U`; when only
`S1` fires, `S1`, `U`, `N` are evaluated and the silent `S2` is not waited for. -/
theorem glitch_freedom_witness :
    (Propagate Engine.fifo exDiamond { events := [(1, 5), (0, 1)] }).evaluated
      = [1, 0, 2, 3] ∧
    (2 : Nat) ∈ [1, 0, 2] ∧
    (Propagate Engine.fifo exDiamond { events := [(1, 5), (0, 1)] }).frontier = [] ∧
    (Propagate Engine.fifo exDiamond { events := [(0, 1)] }).evaluated = [0, 2, 3] ∧
    CurrentEvents Engine.fifo exDiamond { events := [(1, 5), (0, 1)] } 3 = [2, 5] :=
  have h := glitch_freedom Engine.fifo exDiamond { events := [(1, 5), (0, 1)] } (by decide)
  ⟨by decide, h.2.1 [1, 0, 2] 3 [] (by decide) 2 (by decide) (by decide),
   h.2.2 Engine.fifo_picks, by decide, by decide⟩

/-! Isolation of transactions -/

/-- C8 (cross-transaction isolation): starting from a graph whose buffers are empty, after
any sequence of `Emit`, `BeginScope` and scope-commit operations every node's buffer is empty
(in particular after an ad-hoc `Emit` has returned), and the buffers observed inside a later
transaction are those its own inputs produce on the untouched graph: nothing of an earlier
transaction is left in them. -/
theorem cross_transaction_isolation {Ty V : Type} (D : Engine) (ops : List (Op Ty V))
    (d : Domain V) (hclean : d.graph.clean = true) :
    (∀ n, (runOps D ops d).graph.events n = []) ∧
    (∀ (s : REventSource Ty) (e : V) (n : Nat),
      (runOps D (ops ++ [Op.emit s e]) d).graph.events n = []) ∧
    (∀ i n, CurrentEvents D (runOps D ops d).graph i n = CurrentEvents D d.graph i n) := by
  refine ⟨?_, ?_, ?_⟩
  · intro n
    rw [runOps_graph D ops d hclean]
    exact (Graph.clean_iff d.graph).1 hclean n
  · intro s e n
    rw [runOps_graph D _ d hclean]
    exact (Graph.clean_iff d.graph).1 hclean n
  · intro i n
    rw [runOps_graph D ops d hclean]

/-- Witness for C8: over `T = Transform(Filter(S, x > 0), x * 2)`, after `Emit(S, 3)` and a
scope batching `Emit(S, 4)`, the buffer of `T` is empty, and a later transaction with the
input `5` sees `[10]` in it, nothing of `3` or `4`. -/
theorem cross_transaction_isolation_witness :
    (runOps Engine.fifo [Op.emit exS.1 (3 : Int), Op.beginScope, Op.emit exS.1 4,
      Op.commitScope] (Domain.idle exT.2)).graph.events 2 = [] ∧
    CurrentEvents Engine.fifo (runOps Engine.fifo [Op.emit exS.1 (3 : Int), Op.beginScope,
      Op.emit exS.1 4, Op.commitScope] (Domain.idle exT.2)).graph { events := [(0, 5)] } 2
      = [10] :=
  have h := cross_transaction_isolation Engine.fifo [Op.emit exS.1 (3 : Int), Op.beginScope,
      Op.emit exS.1 4, Op.commitScope] (Domain.idle exT.2) (by decide)
  ⟨h.1 2, (h.2.2 { events := [(0, 5)] } 2).trans (by decide)⟩



end react

